import Mathlib

/-!
Verification of the `jdump` streaming JSON-dump library.

Text is modelled as `List Char`.  A "line" is a list of characters that,
except possibly for the last line of a stream, ends with a newline
character, exactly as produced by iterating a Python text file.
-/

namespace JD

/-- Python `str.strip()` whitespace (ASCII subset). -/
def pySpace (c : Char) : Bool :=
  c = ' ' || c = '\t' || c = '\n' || c = '\r' || c = '\x0b' || c = '\x0c'

/-- True when the text contains a character that `str.strip()` keeps. -/
def nonWsB (s : List Char) : Bool := s.any (fun c => !pySpace c)

/-- Trailing-`\r`/`\n` strip, as in `line.rstrip('\r\n')`. -/
def rstripCRLF (l : List Char) : List Char :=
  ((l.reverse).dropWhile (fun c => c = '\r' || c = '\n')).reverse

/-- Split a character stream into lines the way iterating a Python text
file does: every line keeps its trailing newline; a last line without a
newline is returned as-is; the empty stream yields no lines. -/
def pylines : List Char → List (List Char)
  | [] => []
  | c :: cs =>
    if c = '\n' then [c] :: pylines cs
    else
      match pylines cs with
      | [] => [[c]]
      | l :: ls => (c :: l) :: ls

theorem pylines_nil_iff (s : List Char) : pylines s = [] ↔ s = [] := by
  constructor
  · intro h
    cases s with
    | nil => rfl
    | cons c cs =>
      by_cases hc : c = '\n'
      · simp [pylines, hc] at h
      · simp only [pylines, if_neg hc] at h
        cases hp : pylines cs with
        | nil => rw [hp] at h; simp at h
        | cons l ls => rw [hp] at h; simp at h
  · intro h; subst h; rfl

theorem pylines_cons_nl (t : List Char) : pylines ('\n' :: t) = ['\n'] :: pylines t := by
  simp [pylines]

theorem pylines_cons_ne (c : Char) (t : List Char) (hc : ¬c = '\n') :
    pylines (c :: t) =
      match pylines t with
      | [] => [[c]]
      | l :: ls => (c :: l) :: ls := by
  simp [pylines, hc]

/-- Lemma: `pylines` splits across a boundary that ends with a newline. -/
theorem pylines_append (x y : List Char) (hx : x = [] ∨ x.getLast? = some '\n') :
    pylines (x ++ y) = pylines x ++ pylines y := by
  induction x with
  | nil => simp [pylines]
  | cons c cs ih =>
    have hcs : cs = [] ∨ cs.getLast? = some '\n' := by
      cases cs with
      | nil => exact Or.inl rfl
      | cons d ds =>
        rcases hx with hx | hx
        · simp at hx
        · right; rw [← hx]; simp [List.getLast?_cons_cons]
    cases cs with
    | nil =>
      have hc : c = '\n' := by
        rcases hx with hx | hx
        · simp at hx
        · simpa [List.getLast?] using hx
      subst hc
      simp [pylines_cons_nl, pylines]
    | cons d ds =>
      have ih' := ih hcs
      have hpne : pylines (d :: ds) ≠ [] := by
        intro h
        have := (pylines_nil_iff _).mp h
        simp at this
      by_cases hc : c = '\n'
      · subst hc
        rw [List.cons_append, pylines_cons_nl, pylines_cons_nl, ih']
        simp
      · rw [List.cons_append, pylines_cons_ne c _ hc, pylines_cons_ne c _ hc, ih']
        cases hp : pylines (d :: ds) with
        | nil => exact absurd hp hpne
        | cons l ls => simp

/-- Joining the lines back gives the original stream. -/
theorem join_pylines (s : List Char) : (pylines s).flatten = s := by
  induction s with
  | nil => rfl
  | cons c cs ih =>
    by_cases hc : c = '\n'
    · simp [pylines, hc, ih]
    · simp only [pylines, if_neg hc]
      cases hp : pylines cs with
      | nil =>
        rw [hp] at ih; simp at ih
        simp [ih]
      | cons l ls =>
        rw [hp] at ih
        simpa using congrArg (fun t => c :: t) ih

/-- The separator-framer loop of `_reader`: walks the lines, accumulating a
buffer; each line that `rstrip`s to the separator flushes the buffer as one
chunk.  Returns the chunks and the unflushed trailing buffer. -/
def frameAux (sep : List Char) (buf : List (List Char)) :
    List (List Char) → List (List (List Char)) × List (List Char)
  | [] => ([], buf)
  | l :: ls =>
    if rstripCRLF l = sep then
      let r := frameAux sep [] ls
      (buf :: r.1, r.2)
    else
      frameAux sep (buf ++ [l]) ls

/-- Chunks yielded by `_reader` before the input is exhausted. -/
def framerChunks (sep : List Char) (lines : List (List Char)) :
    List (List (List Char)) :=
  (frameAux sep [] lines).1

/-- The unflushed buffer left when the input is exhausted. -/
def framerTail (sep : List Char) (lines : List (List Char)) : List (List Char) :=
  (frameAux sep [] lines).2

/-- Model of the `_reader` exhaustion check: the assert fires exactly when the joined
trailing buffer still contains non-whitespace. -/
def framerBad (sep : List Char) (lines : List (List Char)) : Bool :=
  nonWsB (framerTail sep lines).flatten

/-- Declarative description of the input's tail: the longest suffix of the
line list containing no sentinel line. -/
def afterLastSep (sep : List Char) (lines : List (List Char)) : List (List Char) :=
  (lines.reverse.takeWhile (fun l => !decide (rstripCRLF l = sep))).reverse

theorem takeWhile_append_all {α : Type} (p : α → Bool) (xs ys : List α)
    (h : ∀ x ∈ xs, p x = true) :
    (xs ++ ys).takeWhile p = xs ++ ys.takeWhile p := by
  induction xs with
  | nil => simp
  | cons a as ih =>
    have ha : p a = true := h a (by simp)
    have hrec := ih (fun x hx => h x (by simp [hx]))
    simp [List.takeWhile_cons, ha, hrec]

theorem takeWhile_append_stop {α : Type} (p : α → Bool) (xs ys : List α)
    (h : ∃ x ∈ xs, p x = false) :
    (xs ++ ys).takeWhile p = xs.takeWhile p := by
  induction xs with
  | nil => simp at h
  | cons a as ih =>
    cases ha : p a with
    | true =>
      rcases h with ⟨x, hx, hpx⟩
      rcases List.mem_cons.mp hx with hx | hx
      · subst hx; rw [ha] at hpx; cases hpx
      · have hrec := ih ⟨x, hx, hpx⟩
        simp [List.takeWhile_cons, ha, hrec]
    | false =>
      simp [List.takeWhile_cons, ha]

theorem afterLastSep_cons_sent (sep : List Char) (l : List Char)
    (ls : List (List Char)) (hl : rstripCRLF l = sep) :
    afterLastSep sep (l :: ls) = afterLastSep sep ls := by
  unfold afterLastSep
  simp only [List.reverse_cons]
  by_cases hany : ∃ x ∈ ls.reverse, (fun t => !decide (rstripCRLF t = sep)) x = false
  · rw [takeWhile_append_stop _ _ _ hany]
  · push_neg at hany
    have hall : ∀ x ∈ ls.reverse, (fun t => !decide (rstripCRLF t = sep)) x = true := by
      intro x hx
      cases hb : (fun t => !decide (rstripCRLF t = sep)) x with
      | true => rfl
      | false => exact absurd hb (hany x hx)
    rw [takeWhile_append_all _ _ _ hall]
    have hstop : (fun t => !decide (rstripCRLF t = sep)) l = false := by simp [hl]
    rw [List.takeWhile_eq_self_iff.mpr hall]
    simp [List.takeWhile_cons, hstop]

theorem afterLastSep_cons_nosent (sep : List Char) (l : List Char)
    (ls : List (List Char)) (hl : ¬rstripCRLF l = sep)
    (hno : ∀ x ∈ ls, ¬rstripCRLF x = sep) :
    afterLastSep sep (l :: ls) = l :: ls := by
  unfold afterLastSep
  have hall : ∀ x ∈ (l :: ls).reverse, (fun t => !decide (rstripCRLF t = sep)) x = true := by
    intro x hx
    have hx2 : x ∈ l :: ls := List.mem_reverse.mp hx
    rcases List.mem_cons.mp hx2 with h | h
    · subst h; simp [hl]
    · simp [hno x h]
  rw [List.takeWhile_eq_self_iff.mpr hall]
  simp

theorem afterLastSep_cons_skip (sep : List Char) (l : List Char)
    (ls : List (List Char)) (hsome : ∃ x ∈ ls, rstripCRLF x = sep) :
    afterLastSep sep (l :: ls) = afterLastSep sep ls := by
  unfold afterLastSep
  simp only [List.reverse_cons]
  have hany : ∃ x ∈ ls.reverse, (fun t => !decide (rstripCRLF t = sep)) x = false := by
    rcases hsome with ⟨x, hx, hpx⟩
    exact ⟨x, by simpa using hx, by simp [hpx]⟩
  rw [takeWhile_append_stop _ _ _ hany]

/-- The framer's trailing buffer is exactly the suffix of the input after
the last sentinel line (the whole input when there is none, with the
initial buffer prepended). -/
theorem frameAux_tail (sep : List Char) :
    ∀ (lines : List (List Char)) (buf : List (List Char)),
      (frameAux sep buf lines).2 =
        if ∃ x ∈ lines, rstripCRLF x = sep then afterLastSep sep lines
        else buf ++ lines := by
  intro lines
  induction lines with
  | nil =>
    intro buf
    simp [frameAux, afterLastSep]
  | cons l ls ih =>
    intro buf
    by_cases hl : rstripCRLF l = sep
    · simp only [frameAux, if_pos hl]
      rw [ih []]
      have hmem : ∃ x ∈ l :: ls, rstripCRLF x = sep := ⟨l, by simp, hl⟩
      rw [if_pos hmem, afterLastSep_cons_sent sep l ls hl]
      by_cases hany : ∃ x ∈ ls, rstripCRLF x = sep
      · rw [if_pos hany]
      · rw [if_neg hany]
        push_neg at hany
        unfold afterLastSep
        have hall : ∀ x ∈ ls.reverse, (fun t => !decide (rstripCRLF t = sep)) x = true := by
          intro x hx
          simp [hany x (by simpa using hx)]
        rw [List.takeWhile_eq_self_iff.mpr hall]
        simp
    · simp only [frameAux, if_neg hl]
      rw [ih (buf ++ [l])]
      by_cases hany : ∃ x ∈ ls, rstripCRLF x = sep
      · rw [if_pos hany]
        have hmem : ∃ x ∈ l :: ls, rstripCRLF x = sep := by
          rcases hany with ⟨x, hx, hpx⟩
          exact ⟨x, by simp [hx], hpx⟩
        rw [if_pos hmem, afterLastSep_cons_skip sep l ls hany]
      · rw [if_neg hany]
        have hno : ¬∃ x ∈ l :: ls, rstripCRLF x = sep := by
          push_neg at hany ⊢
          intro x hx
          rcases List.mem_cons.mp hx with h | h
          · subst h; exact hl
          · exact hany x h
        rw [if_neg hno]
        simp

/-- The framer's trailing buffer always equals the suffix after the last
sentinel line. -/
theorem framerTail_eq_afterLastSep (sep : List Char) (lines : List (List Char)) :
    framerTail sep lines = afterLastSep sep lines := by
  unfold framerTail
  rw [frameAux_tail]
  by_cases h : ∃ x ∈ lines, rstripCRLF x = sep
  · rw [if_pos h]
  · rw [if_neg h]
    push_neg at h
    unfold afterLastSep
    have hall : ∀ x ∈ lines.reverse, (fun t => !decide (rstripCRLF t = sep)) x = true := by
      intro x hx
      simp [h x (by simpa using hx)]
    rw [List.takeWhile_eq_self_iff.mpr hall]
    simp

end JD

namespace JD

/-!
### The Document Codec

Modelled from the spec: the repository delegates JSON text encode/decode to
an external library (Python's `json` module), which the spec treats as an
assumed-correct collaborator.  Documents are JSON values whose numbers are
modelled as integers; object entries are association lists of key/value
pairs.  `Json`, `JsonArr` and `JsonObj` are mutually inductive so that all
codec functions are structurally recursive.
-/

mutual

inductive Json where
  | null : Json
  | bool (b : Bool) : Json
  | num (n : Int) : Json
  | str (s : List Char) : Json
  | arr (xs : JsonArr) : Json
  | obj (xs : JsonObj) : Json
  deriving DecidableEq

inductive JsonArr where
  | nil : JsonArr
  | cons (hd : Json) (tl : JsonArr) : JsonArr
  deriving DecidableEq

inductive JsonObj where
  | nil : JsonObj
  | cons (key : List Char) (val : Json) (tl : JsonObj) : JsonObj
  deriving DecidableEq

end

/-- Decimal digit character. -/
def digitChar (n : Nat) : Char := Char.ofNat (48 + n)

/-- Digits of a natural number, fuel-indexed so that it is structurally
recursive and kernel-reducible. -/
def natCharsFuel : Nat → Nat → List Char
  | 0, _ => []
  | f + 1, n => if n < 10 then [digitChar n] else natCharsFuel f (n / 10) ++ [digitChar (n % 10)]

/-- Decimal representation of a natural number. -/
def natChars (n : Nat) : List Char := natCharsFuel (n + 1) n

/-- Decimal representation of an integer, as emitted by the JSON encoder. -/
def intChars : Int → List Char
  | .ofNat n => natChars n
  | .negSucc n => '-' :: natChars (n + 1)

/-- Hexadecimal digit character (lowercase), for control-character escapes. -/
def hexDigitChar (n : Nat) : Char :=
  if n < 10 then Char.ofNat (48 + n) else Char.ofNat (87 + n)

/-- JSON string escaping with `ensure_ascii=False`: only the quote, the
backslash and control characters are escaped; everything else is literal. -/
def escChar (c : Char) : List Char :=
  if c = '"' then ['\\', '"']
  else if c = '\\' then ['\\', '\\']
  else if c = '\n' then ['\\', 'n']
  else if c = '\t' then ['\\', 't']
  else if c = '\r' then ['\\', 'r']
  else if c = '\x08' then ['\\', 'b']
  else if c = '\x0c' then ['\\', 'f']
  else if c.toNat < 32 then ['\\', 'u', '0', '0', hexDigitChar (c.toNat / 16), hexDigitChar (c.toNat % 16)]
  else [c]

def escape : List Char → List Char
  | [] => []
  | c :: cs => escChar c ++ escape cs

/-- A JSON string literal: quote, escaped body, quote. -/
def jstr (s : List Char) : List Char := '"' :: (escape s ++ ['"'])

/-- The literal token of the JSON null value. -/
def tokNull : List Char := ['n', 'u', 'l', 'l']

/-- The literal token of the JSON true value. -/
def tokTrue : List Char := ['t', 'r', 'u', 'e']

/-- The literal token of the JSON false value. -/
def tokFalse : List Char := ['f', 'a', 'l', 's', 'e']

/-- Lexicographic (code-point) order on keys, Python's string `<=`. -/
def keyLe : List Char → List Char → Bool
  | [], _ => true
  | _ :: _, [] => false
  | a :: as, b :: bs =>
    if a.toNat < b.toNat then true
    else if b.toNat < a.toNat then false
    else keyLe as bs

/-- Strict lexicographic order on keys. -/
def keyLt : List Char → List Char → Bool
  | _, [] => false
  | [], _ :: _ => true
  | a :: as, b :: bs =>
    if a.toNat < b.toNat then true
    else if b.toNat < a.toNat then false
    else keyLt as bs

/-- Insertion step of `sort_keys=True` on object entries. -/
def insertEntry (k : List Char) (v : Json) : JsonObj → JsonObj
  | .nil => .cons k v .nil
  | .cons k2 v2 rest =>
    if keyLe k k2 then .cons k v (.cons k2 v2 rest)
    else .cons k2 v2 (insertEntry k v rest)

mutual

/-- Recursively sort all object entries by key (`sort_keys=True`). -/
def sortJson : Json → Json
  | .null => .null
  | .bool b => .bool b
  | .num n => .num n
  | .str s => .str s
  | .arr xs => .arr (sortArr xs)
  | .obj xs => .obj (sortObjEntries xs)

def sortArr : JsonArr → JsonArr
  | .nil => .nil
  | .cons x xs => .cons (sortJson x) (sortArr xs)

def sortObjEntries : JsonObj → JsonObj
  | .nil => .nil
  | .cons k v rest => insertEntry k (sortJson v) (sortObjEntries rest)

end

/-- Run of `n` spaces (indentation). -/
def spaces : Nat → List Char
  | 0 => []
  | n + 1 => ' ' :: spaces n

/-- Append a comma to the last line of a block of lines. -/
def addCommaLast : List (List Char) → List (List Char)
  | [] => []
  | [l] => [l ++ [',']]
  | l :: ls => l :: addCommaLast ls

/-- Prefix the first line of a block with an indent. -/
def indentFirst (ind : List Char) : List (List Char) → List (List Char)
  | [] => []
  | l :: ls => (ind ++ l) :: ls

/-- Assemble the lines of one `"key": value` object entry from the
already-rendered value lines. -/
def entryAssemble (ind key : List Char) : List (List Char) → List (List Char)
  | [] => [ind ++ jstr key ++ [':', ' ']]
  | l :: ls => (ind ++ jstr key ++ ':' :: ' ' :: l) :: ls

mutual

/-- Pretty-printed lines of a value at indent width `w` and depth `k`,
mirroring `json.dumps(..., indent=w)`: the first line carries no
indentation (the caller supplies it), later lines are fully indented. -/
def renderLines (w k : Nat) : Json → List (List Char)
  | .null => [tokNull]
  | .bool true => [tokTrue]
  | .bool false => [tokFalse]
  | .num n => [intChars n]
  | .str s => [jstr s]
  | .arr .nil => [['[', ']']]
  | .arr (.cons x xs) =>
    ['['] :: (renderArr w (k + 1) (.cons x xs) ++ [spaces (w * k) ++ [']']])
  | .obj .nil => [['{', '}']]
  | .obj (.cons key v xs) =>
    ['{'] :: (renderObj w (k + 1) (.cons key v xs) ++ [spaces (w * k) ++ ['}']])

/-- Lines of the comma-separated items of a non-empty array. -/
def renderArr (w k : Nat) : JsonArr → List (List Char)
  | .nil => []
  | .cons x .nil => indentFirst (spaces (w * k)) (renderLines w k x)
  | .cons x (.cons y ys) =>
    addCommaLast (indentFirst (spaces (w * k)) (renderLines w k x)) ++
      renderArr w k (.cons y ys)

/-- Lines of the comma-separated entries of a non-empty object. -/
def renderObj (w k : Nat) : JsonObj → List (List Char)
  | .nil => []
  | .cons key v .nil => entryAssemble (spaces (w * k)) key (renderLines w k v)
  | .cons key v (.cons k2 v2 ys) =>
    addCommaLast (entryAssemble (spaces (w * k)) key (renderLines w k v)) ++
      renderObj w k (.cons k2 v2 ys)

end

/-- Join lines with newline characters (no trailing newline). -/
def joinNL : List (List Char) → List Char
  | [] => []
  | [l] => l
  | l :: ls => l ++ '\n' :: joinNL ls

/-- Model of `json.dumps(obj, indent=w, sort_keys=True, ensure_ascii=False,
allow_nan=False)`: the writer's formatted text. -/
def dumps (w : Nat) (d : Json) : List Char :=
  joinNL (renderLines w 0 (sortJson d))

mutual

/-- Compact serialization with default separators, used for the canonical
dedup hash: `json.dumps(obj, sort_keys=True, ensure_ascii=False,
allow_nan=False)`. -/
def renderC : Json → List Char
  | .null => tokNull
  | .bool true => tokTrue
  | .bool false => tokFalse
  | .num n => intChars n
  | .str s => jstr s
  | .arr .nil => ['[', ']']
  | .arr (.cons x xs) => '[' :: (renderCArr (.cons x xs) ++ [']'])
  | .obj .nil => ['{', '}']
  | .obj (.cons key v xs) => '{' :: (renderCObj (.cons key v xs) ++ ['}'])

def renderCArr : JsonArr → List Char
  | .nil => []
  | .cons x .nil => renderC x
  | .cons x (.cons y ys) => renderC x ++ ',' :: ' ' :: renderCArr (.cons y ys)

def renderCObj : JsonObj → List Char
  | .nil => []
  | .cons key v .nil => jstr key ++ ':' :: ' ' :: renderC v
  | .cons key v (.cons k2 v2 ys) =>
    (jstr key ++ ':' :: ' ' :: renderC v) ++ ',' :: ' ' :: renderCObj (.cons k2 v2 ys)

end

/-- The canonical form whose Python `hash` is stored in the seen-set.  The
model stores the canonical text itself, which identifies documents exactly
when the (collision-free idealization of the) hash does. -/
def canonDump (d : Json) : List Char := renderC (sortJson d)

end JD

namespace JD

/-- JSON inter-token whitespace accepted by the decoder. -/
def jsonWs (c : Char) : Bool := c = ' ' || c = '\t' || c = '\n' || c = '\r'

/-- Skip leading JSON whitespace. -/
def skipWs (s : List Char) : List Char := s.dropWhile jsonWs

/-- Numeric value of a decimal digit character. -/
def digitVal (c : Char) : Nat := c.toNat - 48

/-- Parse a non-empty run of decimal digits into a natural number. -/
def parseNatNum (s : List Char) : Option (Nat × List Char) :=
  let ds := s.takeWhile (fun c => c.isDigit)
  if ds = [] then none
  else some (ds.foldl (fun a c => a * 10 + digitVal c) 0, s.dropWhile (fun c => c.isDigit))

/-- Value of a hexadecimal digit character, if any. -/
def hexVal (c : Char) : Option Nat :=
  if '0' ≤ c ∧ c ≤ '9' then some (c.toNat - 48)
  else if 'a' ≤ c ∧ c ≤ 'f' then some (c.toNat - 87)
  else if 'A' ≤ c ∧ c ≤ 'F' then some (c.toNat - 55)
  else none

/-- Single-character short escapes. -/
def unescChar (c : Char) : Option Char :=
  if c = '"' then some '"'
  else if c = '\\' then some '\\'
  else if c = '/' then some '/'
  else if c = 'n' then some '\n'
  else if c = 't' then some '\t'
  else if c = 'r' then some '\r'
  else if c = 'b' then some '\x08'
  else if c = 'f' then some '\x0c'
  else none

/-- Parse the body of a JSON string literal after the opening quote, up to
and including the closing quote.  Raw control characters are rejected, as
in strict-mode `json.loads`. -/
def parseStr : List Char → Option (List Char × List Char)
  | [] => none
  | c :: rest =>
    if c = '"' then some ([], rest)
    else if c = '\\' then
      match rest with
      | [] => none
      | e :: rest2 =>
        if e = 'u' then
          match rest2 with
          | a :: b :: c2 :: d :: rest3 =>
            match hexVal a, hexVal b, hexVal c2, hexVal d with
            | some va, some vb, some vc, some vd =>
              (parseStr rest3).map
                (fun p => (Char.ofNat (((va * 16 + vb) * 16 + vc) * 16 + vd) :: p.1, p.2))
            | _, _, _, _ => none
          | _ => none
        else
          match unescChar e with
          | some u => (parseStr rest2).map (fun p => (u :: p.1, p.2))
          | none => none
    else if c.toNat < 32 then none
    else (parseStr rest).map (fun p => (c :: p.1, p.2))

/-- Strip an expected literal token. -/
def stripTok : List Char → List Char → Option (List Char)
  | [], s => some s
  | _ :: _, [] => none
  | t :: ts, c :: cs => if c = t then stripTok ts cs else none

mutual

/-- Fuel-indexed recursive-descent JSON value parser (the decoder side of
the Document Codec; numbers cover the integer numerals the encoder
emits). -/
def parseV : Nat → List Char → Option (Json × List Char)
  | 0, _ => none
  | f + 1, s =>
    match skipWs s with
    | [] => none
    | c :: r =>
      if c = '"' then (parseStr r).map (fun p => (.str p.1, p.2))
      else if c = '[' then
        match skipWs r with
        | [] => none
        | c2 :: r2 =>
          if c2 = ']' then some (.arr .nil, r2)
          else (parseItems f (skipWs r)).map (fun p => (.arr p.1, p.2))
      else if c = '{' then
        match skipWs r with
        | [] => none
        | c2 :: r2 =>
          if c2 = '}' then some (.obj .nil, r2)
          else (parseEntries f (skipWs r)).map (fun p => (.obj p.1, p.2))
      else if c = '-' then
        (parseNatNum r).map (fun p => (.num (-(p.1 : Int)), p.2))
      else if c.isDigit then
        (parseNatNum (c :: r)).map (fun p => (.num (p.1 : Int), p.2))
      else
        match stripTok tokNull (c :: r) with
        | some r2 => some (.null, r2)
        | none =>
          match stripTok tokTrue (c :: r) with
          | some r2 => some (.bool true, r2)
          | none =>
            match stripTok tokFalse (c :: r) with
            | some r2 => some (.bool false, r2)
            | none => none

/-- Parse the comma-separated items of a non-empty array, up to and
including the closing bracket. -/
def parseItems : Nat → List Char → Option (JsonArr × List Char)
  | 0, _ => none
  | f + 1, s =>
    match parseV f s with
    | none => none
    | some (x, r) =>
      match skipWs r with
      | [] => none
      | c :: r2 =>
        if c = ',' then (parseItems f r2).map (fun p => (.cons x p.1, p.2))
        else if c = ']' then some (.cons x .nil, r2)
        else none

/-- Parse the comma-separated entries of a non-empty object, up to and
including the closing brace. -/
def parseEntries : Nat → List Char → Option (JsonObj × List Char)
  | 0, _ => none
  | f + 1, s =>
    match skipWs s with
    | [] => none
    | c :: r =>
      if c = '"' then
        match parseStr r with
        | none => none
        | some (k, r1) =>
          match skipWs r1 with
          | [] => none
          | c2 :: r2 =>
            if c2 = ':' then
              match parseV f r2 with
              | none => none
              | some (v, r3) =>
                match skipWs r3 with
                | [] => none
                | c3 :: r4 =>
                  if c3 = ',' then (parseEntries f r4).map (fun p => (.cons k v p.1, p.2))
                  else if c3 = '}' then some (.cons k v .nil, r4)
                  else none
            else none
      else none

end

/-- Model of `json.loads`: parse a complete document, allowing surrounding
whitespace, rejecting trailing garbage. -/
def loads (s : List Char) : Option Json :=
  match parseV (s.length + 1) s with
  | some (d, r) => if skipWs r = [] then some d else none
  | none => none

end JD

namespace JD

/-- Errors a read can raise: the framer's exhaustion assert
(unterminated trailing content) or a JSON decode failure. -/
inductive RErr where
  | frameErr : RErr
  | jsonErr : RErr
  deriving DecidableEq

/-- Result of one `DumpReader.__next__` pull. -/
inductive PullResult where
  | doc (d : Json) (rest : List (List (List Char))) (seen : Option (List (List Char))) : PullResult
  | eos : PullResult
  | err (e : RErr) : PullResult
  deriving DecidableEq

/-- One pull of `DumpReader.__next__` over the framer's remaining chunks:
decode the next chunk; with dedup enabled, skip chunks whose canonical
form is already in the seen-set; at exhaustion, the framer's assert fires
when unterminated content remains (`bad`), else the sequence ends. -/
def pullNext (seen : Option (List (List Char))) (bad : Bool) :
    List (List (List Char)) → PullResult
  | [] => if bad then .err .frameErr else .eos
  | c :: rest =>
    match loads c.flatten with
    | none => .err .jsonErr
    | some d =>
      match seen with
      | none => .doc d rest none
      | some s =>
        if canonDump d ∈ s then pullNext (some s) bad rest
        else .doc d rest (some (canonDump d :: s))

/-- Iterating the reader to exhaustion (`DumpReader.read(-1)`): the
documents yielded in order, the final `obj_num`, and the error that ended
iteration, if any. -/
def readTrace (seen : Option (List (List Char))) (bad : Bool) (n : Nat) :
    List (List (List Char)) → List Json × Nat × Option RErr
  | [] => ([], n, if bad then some .frameErr else none)
  | c :: rest =>
    match loads c.flatten with
    | none => ([], n, some .jsonErr)
    | some d =>
      match seen with
      | none =>
        let r := readTrace none bad (n + 1) rest
        (d :: r.1, r.2.1, r.2.2)
      | some s =>
        if canonDump d ∈ s then readTrace (some s) bad n rest
        else
          let r := readTrace (some (canonDump d :: s)) bad (n + 1) rest
          (d :: r.1, r.2.1, r.2.2)

/-- Reading a whole character stream through `_reader` + `DumpReader`:
frame the lines, then pull documents to exhaustion.  `uniq` is the
`unique` constructor flag (dedup). -/
def readStream (uniq : Bool) (sep : List Char) (content : List Char) :
    List Json × Nat × Option RErr :=
  readTrace (if uniq then some [] else none) (framerBad sep (pylines content)) 0
    (framerChunks sep (pylines content))

/-- State of a `DumpWriter`: the separator blob built at construction, the text
written so far, the optional seen-set (canonical forms in place of their
Python hashes), the written-count and the indent width. -/
structure DumpWriter where
  separator_blob : List Char
  out : List Char
  seen : Option (List (List Char))
  obj_num : Nat
  indent : Nat
  deriving DecidableEq

/-- A fresh `DumpWriter(f, separator=sep, unique=uniq, indent=w)` over an
empty output stream. -/
def mkWriter (sep : List Char) (uniq : Bool) (w : Nat) : DumpWriter :=
  { separator_blob := '\n' :: (sep ++ ['\n'])
    out := []
    seen := if uniq then some [] else none
    obj_num := 0
    indent := w }

/-- Model of `DumpWriter.write`: encode, dedup-check, then append
`formatted + separator_blob` and bump `obj_num`. -/
def DumpWriter.write (wr : DumpWriter) (d : Json) : Bool × DumpWriter :=
  let formatted := dumps wr.indent d
  match wr.seen with
  | some s =>
    if formatted ∈ s then (false, wr)
    else
      (true,
        { wr with
          out := wr.out ++ formatted ++ wr.separator_blob
          seen := some (formatted :: s)
          obj_num := wr.obj_num + 1 })
  | none =>
    (true,
      { wr with
        out := wr.out ++ formatted ++ wr.separator_blob
        obj_num := wr.obj_num + 1 })

/-- Model of `DumpWriter.writemany`: write each document in order, counting the
writes that actually happened. -/
def DumpWriter.writemany (wr : DumpWriter) : List Json → Nat × DumpWriter
  | [] => (0, wr)
  | d :: ds =>
    let r := wr.write d
    let rest := r.2.writemany ds
    ((if r.1 then 1 else 0) + rest.1, rest.2)

end JD

namespace JD

theorem dropWhile_append_all {α : Type} (p : α → Bool) (xs ys : List α)
    (h : ∀ x ∈ xs, p x = true) :
    (xs ++ ys).dropWhile p = ys.dropWhile p := by
  induction xs with
  | nil => simp
  | cons a as ih =>
    have ha : p a = true := h a (by simp)
    have hrec := ih (fun x hx => h x (by simp [hx]))
    simp [List.dropWhile_cons, ha, hrec]

/-- Digit-at-head test: a decimal numeral directly followed by this text
would be mis-tokenized. -/
def digitHeadB : List Char → Bool
  | [] => false
  | c :: _ => c.isDigit

theorem digitChar_isDigit : ∀ n, n < 10 → (digitChar n).isDigit = true := by decide

theorem digitVal_digitChar : ∀ n, n < 10 → digitVal (digitChar n) = n := by decide

theorem natCharsFuel_spec :
    ∀ f n, n < 10 ^ f → 0 < f →
      natCharsFuel f n ≠ [] ∧ (∀ c ∈ natCharsFuel f n, c.isDigit = true) ∧
        (natCharsFuel f n).foldl (fun a c => a * 10 + digitVal c) 0 = n := by
  intro f
  induction f with
  | zero => intro n _ h0; omega
  | succ f ih =>
    intro n hn _
    by_cases hsmall : n < 10
    · refine ⟨by simp [natCharsFuel, hsmall], ?_, ?_⟩
      · intro c hc
        simp only [natCharsFuel, if_pos hsmall] at hc
        simp at hc
        subst hc
        exact digitChar_isDigit n hsmall
      · simp [natCharsFuel, hsmall, digitVal_digitChar n hsmall]
    · have hf : 0 < f := by
        by_contra h0
        have : f = 0 := by omega
        subst this
        simp at hn
        omega
      have hdiv : n / 10 < 10 ^ f := by
        have h1 : n < 10 ^ f * 10 := by
          calc n < 10 ^ (f + 1) := hn
          _ = 10 ^ f * 10 := by ring
        omega
      obtain ⟨hne, hdig, hfold⟩ := ih (n / 10) hdiv hf
      refine ⟨?_, ?_, ?_⟩
      · simp only [natCharsFuel, if_neg hsmall]
        intro h
        exact hne (by simpa using List.append_eq_nil.mp h |>.1)
      · intro c hc
        simp only [natCharsFuel, if_neg hsmall] at hc
        rcases List.mem_append.mp hc with h | h
        · exact hdig c h
        · simp at h
          subst h
          exact digitChar_isDigit _ (Nat.mod_lt _ (by omega))
      · simp only [natCharsFuel, if_neg hsmall]
        rw [List.foldl_append, hfold]
        simp [digitVal_digitChar _ (Nat.mod_lt n (show 0 < 10 by omega))]
        omega

theorem natChars_ne_nil (n : Nat) : natChars n ≠ [] := by
  have h : n < 10 ^ (n + 1) := by
    calc n < 10 ^ n := Nat.lt_pow_self (by omega) n
    _ ≤ 10 ^ (n + 1) := Nat.pow_le_pow_right (by omega) (Nat.le_succ n)
  exact (natCharsFuel_spec (n + 1) n h (by omega)).1

theorem natChars_all_digit (n : Nat) : ∀ c ∈ natChars n, c.isDigit = true := by
  have h : n < 10 ^ (n + 1) := by
    calc n < 10 ^ n := Nat.lt_pow_self (by omega) n
    _ ≤ 10 ^ (n + 1) := Nat.pow_le_pow_right (by omega) (Nat.le_succ n)
  exact (natCharsFuel_spec (n + 1) n h (by omega)).2.1

theorem natChars_foldl (n : Nat) :
    (natChars n).foldl (fun a c => a * 10 + digitVal c) 0 = n := by
  have h : n < 10 ^ (n + 1) := by
    calc n < 10 ^ n := Nat.lt_pow_self (by omega) n
    _ ≤ 10 ^ (n + 1) := Nat.pow_le_pow_right (by omega) (Nat.le_succ n)
  exact (natCharsFuel_spec (n + 1) n h (by omega)).2.2

/-- Parsing the decimal numeral of `n` consumes exactly the numeral. -/
theorem parseNatNum_natChars (n : Nat) (rest : List Char)
    (hrest : digitHeadB rest = false) :
    parseNatNum (natChars n ++ rest) = some (n, rest) := by
  have htake : (natChars n ++ rest).takeWhile (fun c => c.isDigit) = natChars n := by
    rw [takeWhile_append_all _ _ _ (natChars_all_digit n)]
    cases rest with
    | nil => simp
    | cons c cs =>
      simp only [digitHeadB] at hrest
      simp [List.takeWhile_cons, hrest]
  have hdrop : (natChars n ++ rest).dropWhile (fun c => c.isDigit) = rest := by
    rw [dropWhile_append_all _ _ _ (natChars_all_digit n)]
    cases rest with
    | nil => simp
    | cons c cs =>
      simp only [digitHeadB] at hrest
      simp [List.dropWhile_cons, hrest]
  unfold parseNatNum
  simp only [htake, hdrop]
  rw [if_neg (natChars_ne_nil n)]
  rw [natChars_foldl n]

end JD


namespace JD

theorem hexVal_hexDigitChar : ∀ m, m < 16 → hexVal (hexDigitChar m) = some m := by decide

theorem parseStr_quote (t : List Char) : parseStr ('"' :: t) = some ([], t) := by
  rw [parseStr.eq_def]; simp

theorem parseStr_esc_short (e u : Char) (t : List Char) (hu : unescChar e = some u)
    (hne : ¬e = 'u') :
    parseStr ('\\' :: e :: t) = (parseStr t).map (fun p => (u :: p.1, p.2)) := by
  rw [parseStr.eq_def]
  simp [hne, hu]

theorem parseStr_esc_u (a b c d : Char) (t : List Char) :
    parseStr ('\\' :: 'u' :: a :: b :: c :: d :: t) =
      match hexVal a, hexVal b, hexVal c, hexVal d with
      | some va, some vb, some vc, some vd =>
        (parseStr t).map (fun p => (Char.ofNat (((va * 16 + vb) * 16 + vc) * 16 + vd) :: p.1, p.2))
      | _, _, _, _ => none := by
  rw [parseStr.eq_def]
  simp

theorem parseStr_lit (c : Char) (t : List Char) (h1 : ¬c = '"') (h2 : ¬c = '\\')
    (h8 : ¬c.toNat < 32) :
    parseStr (c :: t) = (parseStr t).map (fun p => (c :: p.1, p.2)) := by
  rw [parseStr.eq_def]
  simp [h1, h2, h8]

/-- Parsing a string-literal body undoes the encoder's escaping. -/
theorem parseStr_escape (s : List Char) (rest : List Char) :
    parseStr (escape s ++ '"' :: rest) = some (s, rest) := by
  induction s with
  | nil => simp [escape, parseStr_quote]
  | cons c cs ih =>
    simp only [escape, List.append_assoc]
    by_cases h1 : c = '"'
    · subst h1
      rw [show escChar '"' = ['\\', '"'] from by decide]
      simp only [List.cons_append, List.nil_append]
      rw [parseStr_esc_short '"' '"' _ (by decide) (by decide), ih]
      rfl
    · by_cases h2 : c = '\\'
      · subst h2
        rw [show escChar '\\' = ['\\', '\\'] from by decide]
        simp only [List.cons_append, List.nil_append]
        rw [parseStr_esc_short '\\' '\\' _ (by decide) (by decide), ih]
        rfl
      · by_cases h3 : c = '\n'
        · subst h3
          rw [show escChar '\n' = ['\\', 'n'] from by decide]
          simp only [List.cons_append, List.nil_append]
          rw [parseStr_esc_short 'n' '\n' _ (by decide) (by decide), ih]
          rfl
        · by_cases h4 : c = '\t'
          · subst h4
            rw [show escChar '\t' = ['\\', 't'] from by decide]
            simp only [List.cons_append, List.nil_append]
            rw [parseStr_esc_short 't' '\t' _ (by decide) (by decide), ih]
            rfl
          · by_cases h5 : c = '\r'
            · subst h5
              rw [show escChar '\r' = ['\\', 'r'] from by decide]
              simp only [List.cons_append, List.nil_append]
              rw [parseStr_esc_short 'r' '\r' _ (by decide) (by decide), ih]
              rfl
            · by_cases h6 : c = '\x08'
              · subst h6
                rw [show escChar '\x08' = ['\\', 'b'] from by decide]
                simp only [List.cons_append, List.nil_append]
                rw [parseStr_esc_short 'b' '\x08' _ (by decide) (by decide), ih]
                rfl
              · by_cases h7 : c = '\x0c'
                · subst h7
                  rw [show escChar '\x0c' = ['\\', 'f'] from by decide]
                  simp only [List.cons_append, List.nil_append]
                  rw [parseStr_esc_short 'f' '\x0c' _ (by decide) (by decide), ih]
                  rfl
                · by_cases h8 : c.toNat < 32
                  · have hesc : escChar c =
                        ['\\', 'u', '0', '0', hexDigitChar (c.toNat / 16),
                          hexDigitChar (c.toNat % 16)] := by
                      simp [escChar, h1, h2, h3, h4, h5, h6, h7, h8]
                    rw [hesc]
                    have hv1 : hexVal (hexDigitChar (c.toNat / 16)) = some (c.toNat / 16) :=
                      hexVal_hexDigitChar _ (by omega)
                    have hv2 : hexVal (hexDigitChar (c.toNat % 16)) = some (c.toNat % 16) :=
                      hexVal_hexDigitChar _ (by omega)
                    simp only [List.cons_append, List.nil_append]
                    rw [parseStr_esc_u]
                    simp only [hv1, hv2, show hexVal '0' = some 0 from by decide]
                    rw [ih]
                    have hmod : ((0 * 16 + 0) * 16 + c.toNat / 16) * 16 + c.toNat % 16 =
                        c.toNat := by omega
                    rw [hmod, Char.ofNat_toNat]
                    rfl
                  · have hesc : escChar c = [c] := by
                      simp [escChar, h1, h2, h3, h4, h5, h6, h7, h8]
                    rw [hesc]
                    simp only [List.cons_append, List.nil_append]
                    rw [parseStr_lit c _ h1 h2 h8, ih]
                    rfl

end JD

namespace JD

/-- One-step unfolding of `parseV` at positive fuel. -/
theorem parseV_succ (f : Nat) (s : List Char) :
    parseV (f + 1) s =
      match skipWs s with
      | [] => none
      | c :: r =>
        if c = '"' then (parseStr r).map (fun p => (Json.str p.1, p.2))
        else if c = '[' then
          match skipWs r with
          | [] => none
          | c2 :: r2 =>
            if c2 = ']' then some (.arr .nil, r2)
            else (parseItems f (skipWs r)).map (fun p => (Json.arr p.1, p.2))
        else if c = '{' then
          match skipWs r with
          | [] => none
          | c2 :: r2 =>
            if c2 = '}' then some (.obj .nil, r2)
            else (parseEntries f (skipWs r)).map (fun p => (Json.obj p.1, p.2))
        else if c = '-' then
          (parseNatNum r).map (fun p => (Json.num (-(p.1 : Int)), p.2))
        else if c.isDigit then
          (parseNatNum (c :: r)).map (fun p => (Json.num (p.1 : Int), p.2))
        else
          match stripTok tokNull (c :: r) with
          | some r2 => some (.null, r2)
          | none =>
            match stripTok tokTrue (c :: r) with
            | some r2 => some (.bool true, r2)
            | none =>
              match stripTok tokFalse (c :: r) with
              | some r2 => some (.bool false, r2)
              | none => none := rfl

/-- One-step unfolding of `parseItems` at positive fuel. -/
theorem parseItems_succ (f : Nat) (s : List Char) :
    parseItems (f + 1) s =
      match parseV f s with
      | none => none
      | some (x, r) =>
        match skipWs r with
        | [] => none
        | c :: r2 =>
          if c = ',' then (parseItems f r2).map (fun p => (JsonArr.cons x p.1, p.2))
          else if c = ']' then some (.cons x .nil, r2)
          else none := rfl

/-- One-step unfolding of `parseEntries` at positive fuel. -/
theorem parseEntries_succ (f : Nat) (s : List Char) :
    parseEntries (f + 1) s =
      match skipWs s with
      | [] => none
      | c :: r =>
        if c = '"' then
          match parseStr r with
          | none => none
          | some (k, r1) =>
            match skipWs r1 with
            | [] => none
            | c2 :: r2 =>
              if c2 = ':' then
                match parseV f r2 with
                | none => none
                | some (v, r3) =>
                  match skipWs r3 with
                  | [] => none
                  | c3 :: r4 =>
                    if c3 = ',' then (parseEntries f r4).map (fun p => (JsonObj.cons k v p.1, p.2))
                    else if c3 = '}' then some (.cons k v .nil, r4)
                    else none
              else none
        else none := rfl

theorem skipWs_append_ws (ws s : List Char) (h : ∀ c ∈ ws, jsonWs c = true) :
    skipWs (ws ++ s) = skipWs s := by
  unfold skipWs
  exact dropWhile_append_all _ _ _ h

theorem skipWs_cons_not (c : Char) (s : List Char) (h : jsonWs c = false) :
    skipWs (c :: s) = c :: s := by
  unfold skipWs
  simp [List.dropWhile_cons, h]

theorem skipWs_eq_drop (s : List Char) :
    s = s.takeWhile jsonWs ++ skipWs s := by
  unfold skipWs
  rw [List.takeWhile_append_dropWhile]

theorem takeWhile_all_ws (s : List Char) : ∀ c ∈ s.takeWhile jsonWs, jsonWs c = true := by
  intro c hc
  exact List.mem_takeWhile_imp hc

theorem parseV_ws (f : Nat) (ws s : List Char) (h : ∀ c ∈ ws, jsonWs c = true) :
    parseV f (ws ++ s) = parseV f s := by
  cases f with
  | zero => rfl
  | succ f =>
    rw [parseV_succ, parseV_succ, skipWs_append_ws ws s h]

theorem parseItems_ws (f : Nat) (ws s : List Char) (h : ∀ c ∈ ws, jsonWs c = true) :
    parseItems f (ws ++ s) = parseItems f s := by
  cases f with
  | zero => rfl
  | succ f =>
    rw [parseItems_succ, parseItems_succ, parseV_ws f ws s h]

theorem parseEntries_ws (f : Nat) (ws s : List Char) (h : ∀ c ∈ ws, jsonWs c = true) :
    parseEntries f (ws ++ s) = parseEntries f s := by
  cases f with
  | zero => rfl
  | succ f =>
    rw [parseEntries_succ, parseEntries_succ, skipWs_append_ws ws s h]

theorem parseItems_skipWs (f : Nat) (s : List Char) :
    parseItems f (skipWs s) = parseItems f s := by
  conv_rhs => rw [skipWs_eq_drop s]
  rw [parseItems_ws f _ _ (takeWhile_all_ws s)]

theorem parseEntries_skipWs (f : Nat) (s : List Char) :
    parseEntries f (skipWs s) = parseEntries f s := by
  conv_rhs => rw [skipWs_eq_drop s]
  rw [parseEntries_ws f _ _ (takeWhile_all_ws s)]

theorem joinNL_cons (l : List Char) (ls : List (List Char)) (h : ls ≠ []) :
    joinNL (l :: ls) = l ++ '\n' :: joinNL ls := by
  cases ls with
  | nil => exact absurd rfl h
  | cons a as => rfl

theorem joinNL_append (A B : List (List Char)) (hA : A ≠ []) (hB : B ≠ []) :
    joinNL (A ++ B) = joinNL A ++ '\n' :: joinNL B := by
  induction A with
  | nil => exact absurd rfl hA
  | cons a as ih =>
    cases as with
    | nil =>
      rw [List.cons_append, List.nil_append, joinNL_cons a B hB]
      rfl
    | cons b bs =>
      rw [List.cons_append, joinNL_cons a _ (by simp),
        joinNL_cons a _ (by simp : (b :: bs : List (List Char)) ≠ [])]
      rw [ih (by simp)]
      simp

theorem addCommaLast_ne_nil (L : List (List Char)) (h : L ≠ []) : addCommaLast L ≠ [] := by
  cases L with
  | nil => exact absurd rfl h
  | cons a as =>
    cases as with
    | nil => simp [addCommaLast]
    | cons b bs => simp [addCommaLast]

theorem joinNL_addCommaLast (L : List (List Char)) (h : L ≠ []) :
    joinNL (addCommaLast L) = joinNL L ++ [','] := by
  induction L with
  | nil => exact absurd rfl h
  | cons a as ih =>
    cases as with
    | nil => rfl
    | cons b bs =>
      have hne : addCommaLast (b :: bs) ≠ [] := addCommaLast_ne_nil _ (by simp)
      rw [show addCommaLast (a :: b :: bs) = a :: addCommaLast (b :: bs) from rfl]
      rw [joinNL_cons _ _ hne, joinNL_cons _ _ (by simp : (b :: bs : List (List Char)) ≠ []),
        ih (by simp)]
      simp

theorem indentFirst_ne_nil (i : List Char) (L : List (List Char)) (h : L ≠ []) :
    indentFirst i L ≠ [] := by
  cases L with
  | nil => exact absurd rfl h
  | cons a as => simp [indentFirst]

theorem joinNL_indentFirst (i : List Char) (L : List (List Char)) (h : L ≠ []) :
    joinNL (indentFirst i L) = i ++ joinNL L := by
  cases L with
  | nil => exact absurd rfl h
  | cons a as =>
    cases as with
    | nil => rfl
    | cons b bs =>
      rw [show indentFirst i (a :: b :: bs) = (i ++ a) :: b :: bs from rfl]
      rw [joinNL_cons _ _ (by simp : (b :: bs : List (List Char)) ≠ []),
        joinNL_cons _ _ (by simp : (b :: bs : List (List Char)) ≠ [])]
      simp

theorem entryAssemble_ne_nil (i k : List Char) (L : List (List Char)) :
    entryAssemble i k L ≠ [] := by
  cases L with
  | nil => simp [entryAssemble]
  | cons a as => simp [entryAssemble]

theorem joinNL_entryAssemble (i k : List Char) (L : List (List Char)) (h : L ≠ []) :
    joinNL (entryAssemble i k L) = i ++ jstr k ++ ':' :: ' ' :: joinNL L := by
  cases L with
  | nil => exact absurd rfl h
  | cons a as =>
    cases as with
    | nil => simp [entryAssemble, joinNL]
    | cons b bs =>
      rw [show entryAssemble i k (a :: b :: bs) = (i ++ jstr k ++ ':' :: ' ' :: a) :: b :: bs
        from rfl]
      rw [joinNL_cons _ _ (by simp : (b :: bs : List (List Char)) ≠ []),
        joinNL_cons _ _ (by simp : (b :: bs : List (List Char)) ≠ [])]
      simp

theorem spaces_all_ws (n : Nat) : ∀ c ∈ spaces n, jsonWs c = true := by
  induction n with
  | zero => intro c hc; simp [spaces] at hc
  | succ n ih =>
    intro c hc
    simp only [spaces] at hc
    rcases List.mem_cons.mp hc with h | h
    · subst h; rfl
    · exact ih c h

theorem renderLines_ne_nil (w k : Nat) (d : Json) : renderLines w k d ≠ [] := by
  cases d with
  | null => simp [renderLines]
  | bool b => cases b <;> simp [renderLines]
  | num n => simp [renderLines]
  | str s => simp [renderLines]
  | arr xs => cases xs <;> simp [renderLines]
  | obj xs => cases xs <;> simp [renderLines]

theorem renderArr_ne_nil (w k : Nat) (x : Json) (xs : JsonArr) :
    renderArr w k (.cons x xs) ≠ [] := by
  cases xs with
  | nil =>
    simp only [renderArr]
    exact indentFirst_ne_nil _ _ (renderLines_ne_nil w k x)
  | cons y ys =>
    simp only [renderArr]
    intro h
    rcases List.append_eq_nil.mp h with ⟨h1, _⟩
    exact addCommaLast_ne_nil _ (indentFirst_ne_nil _ _ (renderLines_ne_nil w k x)) h1

theorem renderObj_ne_nil (w k : Nat) (key : List Char) (v : Json) (xs : JsonObj) :
    renderObj w k (.cons key v xs) ≠ [] := by
  cases xs with
  | nil =>
    simp only [renderObj]
    exact entryAssemble_ne_nil _ _ _
  | cons k2 v2 ys =>
    simp only [renderObj]
    intro h
    rcases List.append_eq_nil.mp h with ⟨h1, _⟩
    exact addCommaLast_ne_nil _ (entryAssemble_ne_nil _ _ _) h1

end JD

namespace JD

theorem stripTok_self (tok rest : List Char) : stripTok tok (tok ++ rest) = some rest := by
  induction tok with
  | nil => rfl
  | cons t ts ih => simp [stripTok, ih]

theorem jsonWs_elim (c : Char) (h : jsonWs c = true) :
    c = ' ' ∨ c = '\t' ∨ c = '\n' ∨ c = '\r' := by
  unfold jsonWs at h
  rcases Bool.or_eq_true_iff.mp h with h | h
  · rcases Bool.or_eq_true_iff.mp h with h | h
    · rcases Bool.or_eq_true_iff.mp h with h | h
      · exact Or.inl (by simpa using h)
      · exact Or.inr (Or.inl (by simpa using h))
    · exact Or.inr (Or.inr (Or.inl (by simpa using h)))
  · exact Or.inr (Or.inr (Or.inr (by simpa using h)))

theorem ws_not_digit (c : Char) (h : jsonWs c = true) : c.isDigit = false := by
  rcases jsonWs_elim c h with h | h | h | h <;> subst h <;> decide

theorem ws_not_digitHead (t rest : List Char) (h : ∀ c ∈ t, jsonWs c = true)
    (hr : digitHeadB rest = false) : digitHeadB (t ++ rest) = false := by
  cases t with
  | nil => simpa using hr
  | cons c cs =>
    simp only [List.cons_append, digitHeadB]
    exact ws_not_digit c (h c (by simp))

theorem digit_ne (c : Char) (h : c.isDigit = true) (x : Char) (hx : x.isDigit = false) :
    ¬c = x := by
  intro he
  subst he
  rw [h] at hx
  cases hx

theorem digit_not_ws (c : Char) (h : c.isDigit = true) : jsonWs c = false := by
  cases hw : jsonWs c with
  | false => rfl
  | true =>
    rw [ws_not_digit c hw] at h
    cases h

mutual

/-- Size measure for the fuel of the JSON parser. -/
def szJ : Json → Nat
  | .null => 1
  | .bool _ => 1
  | .num _ => 1
  | .str _ => 1
  | .arr xs => szA xs + 1
  | .obj xs => szO xs + 1

def szA : JsonArr → Nat
  | .nil => 1
  | .cons x xs => szJ x + szA xs + 1

def szO : JsonObj → Nat
  | .nil => 1
  | .cons _ v xs => szJ v + szO xs + 1

end

theorem szJ_pos (d : Json) : 1 ≤ szJ d := by
  cases d <;> simp [szJ]

theorem joinNL_head (c : Char) (t : List Char) (ls : List (List Char)) :
    ∃ u, joinNL ((c :: t) :: ls) = c :: u := by
  cases ls with
  | nil => exact ⟨t, rfl⟩
  | cons a as => exact ⟨t ++ '\n' :: joinNL (a :: as), rfl⟩

/-- The first character of a rendered value: never whitespace, never a
closing bracket. -/
theorem renderJoin_first (w k : Nat) (d : Json) :
    ∃ c u, joinNL (renderLines w k d) = c :: u ∧
      jsonWs c = false ∧ ¬c = ']' ∧ ¬c = '}' := by
  cases d with
  | null => exact ⟨'n', _, rfl, by decide⟩
  | bool b =>
    cases b
    case true => exact ⟨'t', _, rfl, by decide⟩
    case false => exact ⟨'f', _, rfl, by decide⟩
  | num n =>
    cases n with
    | ofNat m =>
      obtain ⟨c, t, hct⟩ := List.exists_cons_of_ne_nil (natChars_ne_nil m)
      have hdig : c.isDigit = true := by
        apply natChars_all_digit m
        rw [hct]; simp
      refine ⟨c, t, ?_, digit_not_ws c hdig,
        digit_ne c hdig ']' (by decide), digit_ne c hdig '}' (by decide)⟩
      simp only [renderLines, intChars, joinNL]
      rw [hct]
    | negSucc m =>
      exact ⟨'-', _, rfl, by decide⟩
  | str s => exact ⟨'"', _, rfl, by decide⟩
  | arr xs =>
    cases xs with
    | nil => exact ⟨'[', _, rfl, by decide⟩
    | cons x rest =>
      have hne : renderArr w (k + 1) (.cons x rest) ++ [spaces (w * k) ++ [']']] ≠ [] := by
        simp
      refine ⟨'[',
        '\n' :: joinNL (renderArr w (k + 1) (.cons x rest) ++ [spaces (w * k) ++ [']']]),
        ?_, by decide⟩
      rw [show renderLines w k (.arr (.cons x rest)) =
        ['['] :: (renderArr w (k + 1) (.cons x rest) ++ [spaces (w * k) ++ [']']]) from rfl]
      rw [joinNL_cons _ _ hne]
      rfl
  | obj xs =>
    cases xs with
    | nil => exact ⟨'{', _, rfl, by decide⟩
    | cons key v rest =>
      have hne : renderObj w (k + 1) (.cons key v rest) ++ [spaces (w * k) ++ ['}']] ≠ [] := by
        simp
      refine ⟨'{',
        '\n' :: joinNL (renderObj w (k + 1) (.cons key v rest) ++ [spaces (w * k) ++ ['}']]),
        ?_, by decide⟩
      rw [show renderLines w k (.obj (.cons key v rest)) =
        ['{'] :: (renderObj w (k + 1) (.cons key v rest) ++ [spaces (w * k) ++ ['}']]) from rfl]
      rw [joinNL_cons _ _ hne]
      rfl

/-- The joined items of a non-empty array start with the item indent
followed by the first item's first character. -/
theorem renderArrJoin_first (w k : Nat) (x : Json) (xs : JsonArr) :
    ∃ c u, joinNL (renderArr w k (.cons x xs)) = spaces (w * k) ++ c :: u ∧
      jsonWs c = false ∧ ¬c = ']' ∧ ¬c = '}' := by
  obtain ⟨c, u, hcu, hws, hbr, hbr2⟩ := renderJoin_first w k x
  cases xs with
  | nil =>
    refine ⟨c, u, ?_, hws, hbr, hbr2⟩
    simp only [renderArr]
    rw [joinNL_indentFirst _ _ (renderLines_ne_nil w k x), hcu]
  | cons y ys =>
    have h1 : indentFirst (spaces (w * k)) (renderLines w k x) ≠ [] :=
      indentFirst_ne_nil _ _ (renderLines_ne_nil w k x)
    have h2 : addCommaLast (indentFirst (spaces (w * k)) (renderLines w k x)) ≠ [] :=
      addCommaLast_ne_nil _ h1
    refine ⟨c, u ++ [','] ++ '\n' :: joinNL (renderArr w k (.cons y ys)), ?_, hws, hbr, hbr2⟩
    simp only [renderArr]
    rw [joinNL_append _ _ h2 (renderArr_ne_nil w k y ys)]
    rw [joinNL_addCommaLast _ h1]
    rw [joinNL_indentFirst _ _ (renderLines_ne_nil w k x), hcu]
    simp

/-- The joined entries of a non-empty object start with the entry indent
followed by the opening quote of the first key. -/
theorem renderObjJoin_first (w k : Nat) (key : List Char) (v : Json) (xs : JsonObj) :
    ∃ u, joinNL (renderObj w k (.cons key v xs)) = spaces (w * k) ++ '"' :: u := by
  cases xs with
  | nil =>
    simp only [renderObj]
    rw [joinNL_entryAssemble _ _ _ (renderLines_ne_nil w k v)]
    exact ⟨escape key ++ '"' :: ':' :: ' ' :: joinNL (renderLines w k v), by simp [jstr]⟩
  | cons k2 v2 ys =>
    have h1 : entryAssemble (spaces (w * k)) key (renderLines w k v) ≠ [] :=
      entryAssemble_ne_nil _ _ _
    have h2 : addCommaLast (entryAssemble (spaces (w * k)) key (renderLines w k v)) ≠ [] :=
      addCommaLast_ne_nil _ h1
    simp only [renderObj]
    rw [joinNL_append _ _ h2 (renderObj_ne_nil w k k2 v2 ys)]
    rw [joinNL_addCommaLast _ h1]
    rw [joinNL_entryAssemble _ _ _ (renderLines_ne_nil w k v)]
    exact ⟨escape key ++ '"' :: ':' :: ' ' ::
      (joinNL (renderLines w k v) ++ ',' :: '\n' :: joinNL (renderObj w k (.cons k2 v2 ys))),
      by simp [jstr]⟩

end JD

namespace JD

/-- Step of `parseV` once the head of the whitespace-stripped input is known. -/
theorem parseV_succ_cons (f : Nat) (s : List Char) (c : Char) (r : List Char)
    (h : skipWs s = c :: r) :
    parseV (f + 1) s =
      (if c = '"' then (parseStr r).map (fun p => (Json.str p.1, p.2))
       else if c = '[' then
         match skipWs r with
         | [] => none
         | c2 :: r2 =>
           if c2 = ']' then some (.arr .nil, r2)
           else (parseItems f (skipWs r)).map (fun p => (Json.arr p.1, p.2))
       else if c = '{' then
         match skipWs r with
         | [] => none
         | c2 :: r2 =>
           if c2 = '}' then some (.obj .nil, r2)
           else (parseEntries f (skipWs r)).map (fun p => (Json.obj p.1, p.2))
       else if c = '-' then (parseNatNum r).map (fun p => (Json.num (-(p.1 : Int)), p.2))
       else if c.isDigit then (parseNatNum (c :: r)).map (fun p => (Json.num (p.1 : Int), p.2))
       else
         match stripTok tokNull (c :: r) with
         | some r2 => some (.null, r2)
         | none =>
           match stripTok tokTrue (c :: r) with
           | some r2 => some (.bool true, r2)
           | none =>
             match stripTok tokFalse (c :: r) with
             | some r2 => some (.bool false, r2)
             | none => none) := by
  rw [parseV_succ, h]

/-- Step of `parseItems` once the element and following delimiter are known. -/
theorem parseItems_step (f : Nat) (s : List Char) (x : Json) (r : List Char) (c : Char)
    (r2 : List Char) (hv : parseV f s = some (x, r)) (hs : skipWs r = c :: r2) :
    parseItems (f + 1) s =
      (if c = ',' then (parseItems f r2).map (fun p => (JsonArr.cons x p.1, p.2))
       else if c = ']' then some (.cons x .nil, r2) else none) := by
  rw [parseItems_succ]
  simp only [hv, hs]

/-- Step of `parseEntries` once the key, colon, value and delimiter are known. -/
theorem parseEntries_step (f : Nat) (s r : List Char) (k' : List Char) (r1 r2 : List Char)
    (v : Json) (r3 : List Char) (c3 : Char) (r4 : List Char)
    (hs : skipWs s = '"' :: r)
    (hstr : parseStr r = some (k', r1))
    (hc : skipWs r1 = ':' :: r2)
    (hv : parseV f r2 = some (v, r3))
    (hr : skipWs r3 = c3 :: r4) :
    parseEntries (f + 1) s =
      (if c3 = ',' then (parseEntries f r4).map (fun p => (JsonObj.cons k' v p.1, p.2))
       else if c3 = '}' then some (.cons k' v .nil, r4) else none) := by
  rw [parseEntries_succ, hs]
  simp [hstr, hc, hv, hr]

theorem nl_spaces_all_ws (n : Nat) : ∀ c ∈ '\n' :: spaces n, jsonWs c = true := by
  intro c hc
  rcases List.mem_cons.mp hc with h | h
  · subst h; rfl
  · exact spaces_all_ws n c h

end JD

namespace JD

/-- Master roundtrip: the fuel-indexed parser reads back exactly what the
pretty-printer emitted, at every indent width and depth. -/
theorem parse_render_master :
    ∀ f : Nat,
      (∀ (d : Json) (w k : Nat) (rest : List Char), szJ d ≤ f → digitHeadB rest = false →
        parseV f (joinNL (renderLines w k d) ++ rest) = some (d, rest)) ∧
      (∀ (x : Json) (xs : JsonArr) (w k : Nat) (t rest : List Char),
        szA (.cons x xs) ≤ f → (∀ c ∈ t, jsonWs c = true) →
        parseItems f (joinNL (renderArr w k (.cons x xs)) ++ (t ++ ']' :: rest)) =
          some (.cons x xs, rest)) ∧
      (∀ (key : List Char) (v : Json) (xs : JsonObj) (w k : Nat) (t rest : List Char),
        szO (.cons key v xs) ≤ f → (∀ c ∈ t, jsonWs c = true) →
        parseEntries f (joinNL (renderObj w k (.cons key v xs)) ++ (t ++ '}' :: rest)) =
          some (.cons key v xs, rest)) := by
  intro f
  induction f with
  | zero =>
    refine ⟨?_, ?_, ?_⟩
    · intro d w k rest hsz _
      have := szJ_pos d
      omega
    · intro x xs w k t rest hsz _
      simp [szA] at hsz
    · intro key v xs w k t rest hsz _
      simp [szO] at hsz
  | succ f ih =>
    obtain ⟨IH1, IH2, IH3⟩ := ih
    refine ⟨?_, ?_, ?_⟩
    · intro d w k rest hsz hd
      cases d with
      | null =>
        rw [show joinNL (renderLines w k Json.null) ++ rest =
          'n' :: 'u' :: 'l' :: 'l' :: rest from rfl]
        rw [parseV_succ_cons f _ 'n' ('u' :: 'l' :: 'l' :: rest)
          (skipWs_cons_not _ _ (by decide))]
        simp [stripTok, tokNull]
      | bool b =>
        cases b with
        | true =>
          rw [show joinNL (renderLines w k (Json.bool true)) ++ rest =
            't' :: 'r' :: 'u' :: 'e' :: rest from rfl]
          rw [parseV_succ_cons f _ 't' ('r' :: 'u' :: 'e' :: rest)
            (skipWs_cons_not _ _ (by decide))]
          simp [stripTok, tokNull, tokTrue]
        | false =>
          rw [show joinNL (renderLines w k (Json.bool false)) ++ rest =
            'f' :: 'a' :: 'l' :: 's' :: 'e' :: rest from rfl]
          rw [parseV_succ_cons f _ 'f' ('a' :: 'l' :: 's' :: 'e' :: rest)
            (skipWs_cons_not _ _ (by decide))]
          simp [stripTok, tokNull, tokTrue, tokFalse]
      | num n =>
        cases n with
        | ofNat m =>
          obtain ⟨c, tc, hct⟩ := List.exists_cons_of_ne_nil (natChars_ne_nil m)
          have hdig : c.isDigit = true := natChars_all_digit m c (by rw [hct]; simp)
          rw [show joinNL (renderLines w k (Json.num (Int.ofNat m))) = natChars m from rfl]
          rw [hct, List.cons_append]
          rw [parseV_succ_cons f _ c (tc ++ rest)
            (skipWs_cons_not _ _ (digit_not_ws c hdig))]
          rw [if_neg (digit_ne c hdig '"' (by decide)), if_neg (digit_ne c hdig '[' (by decide)),
            if_neg (digit_ne c hdig '{' (by decide)), if_neg (digit_ne c hdig '-' (by decide)),
            if_pos hdig]
          rw [show c :: (tc ++ rest) = (c :: tc) ++ rest from rfl, ← hct]
          rw [parseNatNum_natChars m rest hd]
          rfl
        | negSucc m =>
          rw [show joinNL (renderLines w k (Json.num (Int.negSucc m))) =
            '-' :: natChars (m + 1) from rfl]
          rw [List.cons_append]
          rw [parseV_succ_cons f _ '-' (natChars (m + 1) ++ rest)
            (skipWs_cons_not _ _ (by decide))]
          rw [if_neg (by decide : ¬('-' : Char) = '"'), if_neg (by decide : ¬('-' : Char) = '['),
            if_neg (by decide : ¬('-' : Char) = '{'), if_pos rfl]
          rw [parseNatNum_natChars (m + 1) rest hd]
          have hneg : -(((m + 1 : Nat) : Int)) = Int.negSucc m := by
            simp [Int.negSucc_eq]
          simp only [Option.map_some', hneg]
      | str s =>
        have hjoin : joinNL (renderLines w k (Json.str s)) ++ rest =
            '"' :: (escape s ++ '"' :: rest) := by
          simp [renderLines, joinNL, jstr]
        rw [hjoin]
        rw [parseV_succ_cons f _ '"' (escape s ++ '"' :: rest)
          (skipWs_cons_not _ _ (by decide))]
        rw [if_pos rfl, parseStr_escape]
        rfl
      | arr xs =>
        cases xs with
        | nil =>
          rw [show joinNL (renderLines w k (Json.arr JsonArr.nil)) ++ rest =
            '[' :: ']' :: rest from rfl]
          rw [parseV_succ_cons f _ '[' (']' :: rest) (skipWs_cons_not _ _ (by decide))]
          rw [if_neg (by decide : ¬('[' : Char) = '"'), if_pos rfl]
          rw [skipWs_cons_not _ _ (by decide : jsonWs ']' = false)]
          simp
        | cons x xs =>
          have hszA : szA (JsonArr.cons x xs) ≤ f := by
            simp [szJ] at hsz; omega
          obtain ⟨c0, u, hfst, hws0, hbr0, _⟩ := renderArrJoin_first w (k + 1) x xs
          have hA := renderArr_ne_nil w (k + 1) x xs
          have hstream : joinNL (renderLines w k (Json.arr (JsonArr.cons x xs))) ++ rest =
              '[' :: ('\n' :: (joinNL (renderArr w (k + 1) (JsonArr.cons x xs)) ++
                ('\n' :: (spaces (w * k) ++ (']' :: rest))))) := by
            rw [show renderLines w k (Json.arr (JsonArr.cons x xs)) =
              ['['] :: (renderArr w (k + 1) (JsonArr.cons x xs) ++ [spaces (w * k) ++ [']']])
              from rfl]
            rw [joinNL_cons _ _ (by simp), joinNL_append _ _ hA (by simp)]
            simp [joinNL]
          rw [hstream]
          have hskipR : skipWs ('\n' :: (joinNL (renderArr w (k + 1) (JsonArr.cons x xs)) ++
              ('\n' :: (spaces (w * k) ++ (']' :: rest))))) =
              c0 :: (u ++ ('\n' :: (spaces (w * k) ++ (']' :: rest)))) := by
            rw [show ('\n' :: (joinNL (renderArr w (k + 1) (JsonArr.cons x xs)) ++
              ('\n' :: (spaces (w * k) ++ (']' :: rest))))) =
              ('\n' :: spaces (w * (k + 1))) ++
                (c0 :: (u ++ ('\n' :: (spaces (w * k) ++ (']' :: rest))))) from by
              rw [hfst]; simp]
            rw [skipWs_append_ws _ _ (nl_spaces_all_ws _), skipWs_cons_not _ _ hws0]
          rw [parseV_succ_cons f _ '[' _ (skipWs_cons_not _ _ (by decide))]
          rw [if_neg (by decide : ¬('[' : Char) = '"'), if_pos rfl]
          simp only [hskipR]
          rw [if_neg hbr0]
          rw [← hskipR, parseItems_skipWs]
          rw [show ('\n' :: (joinNL (renderArr w (k + 1) (JsonArr.cons x xs)) ++
              ('\n' :: (spaces (w * k) ++ (']' :: rest))))) =
            ['\n'] ++ (joinNL (renderArr w (k + 1) (JsonArr.cons x xs)) ++
              (('\n' :: spaces (w * k)) ++ (']' :: rest))) from by simp]
          rw [parseItems_ws f _ _ (by intro c hc; simp at hc; subst hc; rfl)]
          rw [IH2 x xs w (k + 1) ('\n' :: spaces (w * k)) rest hszA (nl_spaces_all_ws _)]
          rfl
      | obj xs =>
        cases xs with
        | nil =>
          rw [show joinNL (renderLines w k (Json.obj JsonObj.nil)) ++ rest =
            '{' :: '}' :: rest from rfl]
          rw [parseV_succ_cons f _ '{' ('}' :: rest) (skipWs_cons_not _ _ (by decide))]
          rw [if_neg (by decide : ¬('{' : Char) = '"'),
            if_neg (by decide : ¬('{' : Char) = '['), if_pos rfl]
          rw [skipWs_cons_not _ _ (by decide : jsonWs '}' = false)]
          simp
        | cons key v xs =>
          have hszO : szO (JsonObj.cons key v xs) ≤ f := by
            simp [szJ] at hsz; omega
          obtain ⟨u, hfst⟩ := renderObjJoin_first w (k + 1) key v xs
          have hO := renderObj_ne_nil w (k + 1) key v xs
          have hstream : joinNL (renderLines w k (Json.obj (JsonObj.cons key v xs))) ++ rest =
              '{' :: ('\n' :: (joinNL (renderObj w (k + 1) (JsonObj.cons key v xs)) ++
                ('\n' :: (spaces (w * k) ++ ('}' :: rest))))) := by
            rw [show renderLines w k (Json.obj (JsonObj.cons key v xs)) =
              ['{'] :: (renderObj w (k + 1) (JsonObj.cons key v xs) ++ [spaces (w * k) ++ ['}']])
              from rfl]
            rw [joinNL_cons _ _ (by simp), joinNL_append _ _ hO (by simp)]
            simp [joinNL]
          rw [hstream]
          have hskipR : skipWs ('\n' :: (joinNL (renderObj w (k + 1) (JsonObj.cons key v xs)) ++
              ('\n' :: (spaces (w * k) ++ ('}' :: rest))))) =
              '"' :: (u ++ ('\n' :: (spaces (w * k) ++ ('}' :: rest)))) := by
            rw [show ('\n' :: (joinNL (renderObj w (k + 1) (JsonObj.cons key v xs)) ++
              ('\n' :: (spaces (w * k) ++ ('}' :: rest))))) =
              ('\n' :: spaces (w * (k + 1))) ++
                ('"' :: (u ++ ('\n' :: (spaces (w * k) ++ ('}' :: rest))))) from by
              rw [hfst]; simp]
            rw [skipWs_append_ws _ _ (nl_spaces_all_ws _), skipWs_cons_not _ _ (by decide)]
          rw [parseV_succ_cons f _ '{' _ (skipWs_cons_not _ _ (by decide))]
          rw [if_neg (by decide : ¬('{' : Char) = '"'),
            if_neg (by decide : ¬('{' : Char) = '['), if_pos rfl]
          simp only [hskipR]
          rw [if_neg (by decide : ¬('"' : Char) = '}')]
          rw [← hskipR, parseEntries_skipWs]
          rw [show ('\n' :: (joinNL (renderObj w (k + 1) (JsonObj.cons key v xs)) ++
              ('\n' :: (spaces (w * k) ++ ('}' :: rest))))) =
            ['\n'] ++ (joinNL (renderObj w (k + 1) (JsonObj.cons key v xs)) ++
              (('\n' :: spaces (w * k)) ++ ('}' :: rest))) from by simp]
          rw [parseEntries_ws f _ _ (by intro c hc; simp at hc; subst hc; rfl)]
          rw [IH3 key v xs w (k + 1) ('\n' :: spaces (w * k)) rest hszO (nl_spaces_all_ws _)]
          rfl
    · intro x xs w k t rest hsz hws
      cases xs with
      | nil =>
        have hj : joinNL (renderArr w k (JsonArr.cons x JsonArr.nil)) =
            spaces (w * k) ++ joinNL (renderLines w k x) := by
          simp only [renderArr]
          exact joinNL_indentFirst _ _ (renderLines_ne_nil w k x)
        have hszx : szJ x ≤ f := by simp [szA] at hsz; omega
        have hV : parseV f (joinNL (renderArr w k (JsonArr.cons x JsonArr.nil)) ++
            (t ++ ']' :: rest)) = some (x, t ++ ']' :: rest) := by
          rw [hj, List.append_assoc, parseV_ws f _ _ (spaces_all_ws _)]
          exact IH1 x w k _ hszx (ws_not_digitHead t _ hws rfl)
        have hsk : skipWs (t ++ ']' :: rest) = ']' :: rest := by
          rw [skipWs_append_ws _ _ hws, skipWs_cons_not _ _ (by decide)]
        rw [parseItems_step f _ x _ ']' rest hV hsk]
        simp
      | cons y ys =>
        have h1 : indentFirst (spaces (w * k)) (renderLines w k x) ≠ [] :=
          indentFirst_ne_nil _ _ (renderLines_ne_nil w k x)
        have h2 := addCommaLast_ne_nil _ h1
        have hj : joinNL (renderArr w k (JsonArr.cons x (JsonArr.cons y ys))) =
            spaces (w * k) ++ (joinNL (renderLines w k x) ++
              (',' :: '\n' :: joinNL (renderArr w k (JsonArr.cons y ys)))) := by
          simp only [renderArr]
          rw [joinNL_append _ _ h2 (renderArr_ne_nil w k y ys), joinNL_addCommaLast _ h1,
            joinNL_indentFirst _ _ (renderLines_ne_nil w k x)]
          simp
        have hszx : szJ x ≤ f := by simp [szA] at hsz; omega
        have hszr : szA (JsonArr.cons y ys) ≤ f := by simp [szA] at hsz ⊢; omega
        have hV : parseV f (joinNL (renderArr w k (JsonArr.cons x (JsonArr.cons y ys))) ++
            (t ++ ']' :: rest)) =
            some (x, ',' :: '\n' :: (joinNL (renderArr w k (JsonArr.cons y ys)) ++
              (t ++ ']' :: rest))) := by
          rw [hj]
          simp only [List.append_assoc, List.cons_append]
          rw [parseV_ws f _ _ (spaces_all_ws _)]
          exact IH1 x w k _ hszx rfl
        have hsk : skipWs (',' :: '\n' :: (joinNL (renderArr w k (JsonArr.cons y ys)) ++
            (t ++ ']' :: rest))) =
            ',' :: ('\n' :: (joinNL (renderArr w k (JsonArr.cons y ys)) ++
              (t ++ ']' :: rest))) := skipWs_cons_not _ _ (by decide)
        rw [parseItems_step f _ x _ ',' _ hV hsk]
        rw [if_pos rfl]
        rw [show ('\n' :: (joinNL (renderArr w k (JsonArr.cons y ys)) ++ (t ++ ']' :: rest))) =
          ['\n'] ++ (joinNL (renderArr w k (JsonArr.cons y ys)) ++ (t ++ ']' :: rest))
          from rfl]
        rw [parseItems_ws f _ _ (by intro c hc; simp at hc; subst hc; rfl)]
        rw [IH2 y ys w k t rest hszr hws]
        rfl
    · intro key v xs w k t rest hsz hws
      cases xs with
      | nil =>
        have hj : joinNL (renderObj w k (JsonObj.cons key v JsonObj.nil)) =
            spaces (w * k) ++ jstr key ++ ':' :: ' ' :: joinNL (renderLines w k v) := by
          simp only [renderObj]
          exact joinNL_entryAssemble _ _ _ (renderLines_ne_nil w k v)
        have hszv : szJ v ≤ f := by simp [szO] at hsz; omega
        have hs : skipWs (joinNL (renderObj w k (JsonObj.cons key v JsonObj.nil)) ++
            (t ++ '}' :: rest)) =
            '"' :: (escape key ++ '"' :: (':' :: (' ' ::
              (joinNL (renderLines w k v) ++ (t ++ '}' :: rest))))) := by
          rw [hj]
          simp only [jstr, List.append_assoc, List.cons_append, List.nil_append]
          rw [skipWs_append_ws _ _ (spaces_all_ws _), skipWs_cons_not _ _ (by decide)]
        have hstr : parseStr (escape key ++ '"' :: (':' :: (' ' ::
            (joinNL (renderLines w k v) ++ (t ++ '}' :: rest))))) =
            some (key, ':' :: (' ' :: (joinNL (renderLines w k v) ++ (t ++ '}' :: rest)))) :=
          parseStr_escape key _
        have hc : skipWs (':' :: (' ' :: (joinNL (renderLines w k v) ++ (t ++ '}' :: rest)))) =
            ':' :: (' ' :: (joinNL (renderLines w k v) ++ (t ++ '}' :: rest))) :=
          skipWs_cons_not _ _ (by decide)
        have hv : parseV f (' ' :: (joinNL (renderLines w k v) ++ (t ++ '}' :: rest))) =
            some (v, t ++ '}' :: rest) := by
          rw [show (' ' :: (joinNL (renderLines w k v) ++ (t ++ '}' :: rest))) =
            [' '] ++ (joinNL (renderLines w k v) ++ (t ++ '}' :: rest)) from rfl]
          rw [parseV_ws f _ _ (by intro c hc2; simp at hc2; subst hc2; rfl)]
          exact IH1 v w k _ hszv (ws_not_digitHead t _ hws rfl)
        have hr : skipWs (t ++ '}' :: rest) = '}' :: rest := by
          rw [skipWs_append_ws _ _ hws, skipWs_cons_not _ _ (by decide)]
        rw [parseEntries_step f _ _ key _ _ v _ '}' rest hs hstr hc hv hr]
        simp
      | cons k2 v2 ys =>
        have h1 : entryAssemble (spaces (w * k)) key (renderLines w k v) ≠ [] :=
          entryAssemble_ne_nil _ _ _
        have h2 := addCommaLast_ne_nil _ h1
        have hj : joinNL (renderObj w k (JsonObj.cons key v (JsonObj.cons k2 v2 ys))) =
            spaces (w * k) ++ jstr key ++ ':' :: ' ' :: (joinNL (renderLines w k v) ++
              (',' :: '\n' :: joinNL (renderObj w k (JsonObj.cons k2 v2 ys)))) := by
          simp only [renderObj]
          rw [joinNL_append _ _ h2 (renderObj_ne_nil w k k2 v2 ys), joinNL_addCommaLast _ h1,
            joinNL_entryAssemble _ _ _ (renderLines_ne_nil w k v)]
          simp
        have hszv : szJ v ≤ f := by simp [szO] at hsz; omega
        have hszr : szO (JsonObj.cons k2 v2 ys) ≤ f := by simp [szO] at hsz ⊢; omega
        have hs : skipWs (joinNL (renderObj w k (JsonObj.cons key v (JsonObj.cons k2 v2 ys))) ++
            (t ++ '}' :: rest)) =
            '"' :: (escape key ++ '"' :: (':' :: (' ' ::
              (joinNL (renderLines w k v) ++ (',' :: ('\n' ::
                (joinNL (renderObj w k (JsonObj.cons k2 v2 ys)) ++ (t ++ '}' :: rest)))))))) := by
          rw [hj]
          simp only [jstr, List.append_assoc, List.cons_append, List.nil_append]
          rw [skipWs_append_ws _ _ (spaces_all_ws _), skipWs_cons_not _ _ (by decide)]
        have hstr : parseStr (escape key ++ '"' :: (':' :: (' ' ::
            (joinNL (renderLines w k v) ++ (',' :: ('\n' ::
              (joinNL (renderObj w k (JsonObj.cons k2 v2 ys)) ++ (t ++ '}' :: rest)))))))) =
            some (key, ':' :: (' ' :: (joinNL (renderLines w k v) ++ (',' :: ('\n' ::
              (joinNL (renderObj w k (JsonObj.cons k2 v2 ys)) ++ (t ++ '}' :: rest))))))) :=
          parseStr_escape key _
        have hc : skipWs (':' :: (' ' :: (joinNL (renderLines w k v) ++ (',' :: ('\n' ::
            (joinNL (renderObj w k (JsonObj.cons k2 v2 ys)) ++ (t ++ '}' :: rest))))))) =
            ':' :: (' ' :: (joinNL (renderLines w k v) ++ (',' :: ('\n' ::
              (joinNL (renderObj w k (JsonObj.cons k2 v2 ys)) ++ (t ++ '}' :: rest)))))) :=
          skipWs_cons_not _ _ (by decide)
        have hv : parseV f (' ' :: (joinNL (renderLines w k v) ++ (',' :: ('\n' ::
            (joinNL (renderObj w k (JsonObj.cons k2 v2 ys)) ++ (t ++ '}' :: rest)))))) =
            some (v, ',' :: ('\n' ::
              (joinNL (renderObj w k (JsonObj.cons k2 v2 ys)) ++ (t ++ '}' :: rest)))) := by
          rw [show (' ' :: (joinNL (renderLines w k v) ++ (',' :: ('\n' ::
            (joinNL (renderObj w k (JsonObj.cons k2 v2 ys)) ++ (t ++ '}' :: rest)))))) =
            [' '] ++ (joinNL (renderLines w k v) ++ (',' :: ('\n' ::
              (joinNL (renderObj w k (JsonObj.cons k2 v2 ys)) ++ (t ++ '}' :: rest)))))
            from rfl]
          rw [parseV_ws f _ _ (by intro c hc2; simp at hc2; subst hc2; rfl)]
          exact IH1 v w k _ hszv rfl
        have hr : skipWs (',' :: ('\n' ::
            (joinNL (renderObj w k (JsonObj.cons k2 v2 ys)) ++ (t ++ '}' :: rest)))) =
            ',' :: ('\n' ::
              (joinNL (renderObj w k (JsonObj.cons k2 v2 ys)) ++ (t ++ '}' :: rest))) :=
          skipWs_cons_not _ _ (by decide)
        rw [parseEntries_step f _ _ key _ _ v _ ',' _ hs hstr hc hv hr]
        rw [if_pos rfl]
        rw [show ('\n' :: (joinNL (renderObj w k (JsonObj.cons k2 v2 ys)) ++
            (t ++ '}' :: rest))) =
          ['\n'] ++ (joinNL (renderObj w k (JsonObj.cons k2 v2 ys)) ++ (t ++ '}' :: rest))
          from rfl]
        rw [parseEntries_ws f _ _ (by intro c hc2; simp at hc2; subst hc2; rfl)]
        rw [IH3 k2 v2 ys w k t rest hszr hws]
        rfl

end JD

namespace JD

theorem joinNL_arr_cons (w k : Nat) (x : Json) (xs : JsonArr) :
    joinNL (renderLines w k (.arr (.cons x xs))) =
      '[' :: '\n' :: (joinNL (renderArr w (k + 1) (.cons x xs)) ++
        '\n' :: (spaces (w * k) ++ [']'])) := by
  rw [show renderLines w k (.arr (.cons x xs)) =
    ['['] :: (renderArr w (k + 1) (.cons x xs) ++ [spaces (w * k) ++ [']']]) from rfl]
  rw [joinNL_cons _ _ (by simp), joinNL_append _ _ (renderArr_ne_nil w (k + 1) x xs) (by simp)]
  simp [joinNL]

theorem joinNL_obj_cons (w k : Nat) (key : List Char) (v : Json) (xs : JsonObj) :
    joinNL (renderLines w k (.obj (.cons key v xs))) =
      '{' :: '\n' :: (joinNL (renderObj w (k + 1) (.cons key v xs)) ++
        '\n' :: (spaces (w * k) ++ ['}'])) := by
  rw [show renderLines w k (.obj (.cons key v xs)) =
    ['{'] :: (renderObj w (k + 1) (.cons key v xs) ++ [spaces (w * k) ++ ['}']]) from rfl]
  rw [joinNL_cons _ _ (by simp),
    joinNL_append _ _ (renderObj_ne_nil w (k + 1) key v xs) (by simp)]
  simp [joinNL]

mutual

theorem szLenJ (w k : Nat) (d : Json) :
    szJ d ≤ (joinNL (renderLines w k d)).length + 1 := by
  cases d with
  | null => simp [szJ]
  | bool b => simp [szJ]
  | num n => simp [szJ]
  | str s => simp [szJ]
  | arr xs =>
    cases xs with
    | nil => simp [szJ, szA, renderLines, joinNL]
    | cons x rest =>
      have h := szLenA w (k + 1) (JsonArr.cons x rest)
      rw [joinNL_arr_cons w k x rest]
      simp only [szJ, List.length_cons, List.length_append]
      simp at h ⊢
      omega
  | obj xs =>
    cases xs with
    | nil => simp [szJ, szO, renderLines, joinNL]
    | cons key v rest =>
      have h := szLenO w (k + 1) (JsonObj.cons key v rest)
      rw [joinNL_obj_cons w k key v rest]
      simp only [szJ, List.length_cons, List.length_append]
      simp at h ⊢
      omega

theorem szLenA (w k : Nat) (a : JsonArr) :
    szA a ≤ (joinNL (renderArr w k a)).length + 3 := by
  cases a with
  | nil => simp [szA, renderArr, joinNL]
  | cons x rest =>
    cases rest with
    | nil =>
      have hx := szLenJ w k x
      rw [show renderArr w k (JsonArr.cons x JsonArr.nil) =
        indentFirst (spaces (w * k)) (renderLines w k x) from rfl]
      rw [joinNL_indentFirst _ _ (renderLines_ne_nil w k x)]
      simp only [szA, szJ, List.length_append]
      omega
    | cons y ys =>
      have hx := szLenJ w k x
      have hr := szLenA w k (JsonArr.cons y ys)
      have h1 : indentFirst (spaces (w * k)) (renderLines w k x) ≠ [] :=
        indentFirst_ne_nil _ _ (renderLines_ne_nil w k x)
      have h2 := addCommaLast_ne_nil _ h1
      rw [show renderArr w k (JsonArr.cons x (JsonArr.cons y ys)) =
        addCommaLast (indentFirst (spaces (w * k)) (renderLines w k x)) ++
          renderArr w k (JsonArr.cons y ys) from rfl]
      rw [joinNL_append _ _ h2 (renderArr_ne_nil w k y ys), joinNL_addCommaLast _ h1,
        joinNL_indentFirst _ _ (renderLines_ne_nil w k x)]
      simp only [szA] at hr
      simp only [szA, List.length_append, List.length_cons]
      omega

theorem szLenO (w k : Nat) (o : JsonObj) :
    szO o ≤ (joinNL (renderObj w k o)).length + 3 := by
  cases o with
  | nil => simp [szO, renderObj, joinNL]
  | cons key v rest =>
    cases rest with
    | nil =>
      have hv := szLenJ w k v
      rw [show renderObj w k (JsonObj.cons key v JsonObj.nil) =
        entryAssemble (spaces (w * k)) key (renderLines w k v) from rfl]
      rw [joinNL_entryAssemble _ _ _ (renderLines_ne_nil w k v)]
      simp only [szO, szJ, List.length_append, List.length_cons]
      omega
    | cons k2 v2 ys =>
      have hv := szLenJ w k v
      have hr := szLenO w k (JsonObj.cons k2 v2 ys)
      have h1 : entryAssemble (spaces (w * k)) key (renderLines w k v) ≠ [] :=
        entryAssemble_ne_nil _ _ _
      have h2 := addCommaLast_ne_nil _ h1
      rw [show renderObj w k (JsonObj.cons key v (JsonObj.cons k2 v2 ys)) =
        addCommaLast (entryAssemble (spaces (w * k)) key (renderLines w k v)) ++
          renderObj w k (JsonObj.cons k2 v2 ys) from rfl]
      rw [joinNL_append _ _ h2 (renderObj_ne_nil w k k2 v2 ys), joinNL_addCommaLast _ h1,
        joinNL_entryAssemble _ _ _ (renderLines_ne_nil w k v)]
      simp only [szO] at hr
      simp only [szO, List.length_append, List.length_cons]
      omega

end

/-- Parsing back a rendered value, with a trailing newline, yields the
value. -/
theorem loads_render (w : Nat) (d : Json) :
    loads (joinNL (renderLines w 0 d) ++ ['\n']) = some d := by
  unfold loads
  have hfuel : szJ d ≤ (joinNL (renderLines w 0 d) ++ ['\n']).length + 1 := by
    have := szLenJ w 0 d
    simp only [List.length_append, List.length_cons, List.length_nil]
    omega
  rw [(parse_render_master ((joinNL (renderLines w 0 d) ++ ['\n']).length + 1)).1
    d w 0 ['\n'] hfuel rfl]
  simp [skipWs, jsonWs]

end JD

namespace JD

/-- Adjacent-strict-ascending key order of an entry list. -/
def keysSorted : JsonObj → Bool
  | .nil => true
  | .cons _ _ .nil => true
  | .cons k _ (.cons k2 v2 rest) => keyLt k k2 && keysSorted (.cons k2 v2 rest)

mutual

/-- A document is canonical when every object's entries are strictly
sorted by key, recursively; the representative of a Python dict, whose
equality ignores insertion order. -/
def isCanon : Json → Bool
  | .null => true
  | .bool _ => true
  | .num _ => true
  | .str _ => true
  | .arr xs => isCanonA xs
  | .obj xs => keysSorted xs && isCanonO xs

def isCanonA : JsonArr → Bool
  | .nil => true
  | .cons x xs => isCanon x && isCanonA xs

def isCanonO : JsonObj → Bool
  | .nil => true
  | .cons _ v xs => isCanon v && isCanonO xs

end

theorem keyLt_le (a b : List Char) (h : keyLt a b = true) : keyLe a b = true := by
  induction a generalizing b with
  | nil => cases b <;> simp [keyLe]
  | cons c cs ih =>
    cases b with
    | nil => simp [keyLt] at h
    | cons d ds =>
      simp only [keyLt] at h
      simp only [keyLe]
      by_cases h1 : c.toNat < d.toNat
      · simp [h1]
      · rw [if_neg h1] at h ⊢
        by_cases h2 : d.toNat < c.toNat
        · rw [if_pos h2] at h; cases h
        · rw [if_neg h2] at h ⊢
          exact ih ds h

theorem keysSorted_tail (k : List Char) (v : Json) (rest : JsonObj)
    (h : keysSorted (.cons k v rest) = true) : keysSorted rest = true := by
  cases rest with
  | nil => rfl
  | cons k2 v2 ys =>
    simp only [keysSorted, Bool.and_eq_true] at h
    exact h.2

mutual

theorem canonId (d : Json) (h : isCanon d = true) : sortJson d = d := by
  cases d with
  | null => rfl
  | bool b => rfl
  | num n => rfl
  | str s => rfl
  | arr xs =>
    simp only [isCanon] at h
    simp only [sortJson]
    rw [canonIdA xs h]
  | obj xs =>
    simp only [isCanon, Bool.and_eq_true] at h
    simp only [sortJson]
    rw [canonIdO xs h.1 h.2]

theorem canonIdA (a : JsonArr) (h : isCanonA a = true) : sortArr a = a := by
  cases a with
  | nil => rfl
  | cons x xs =>
    simp only [isCanonA, Bool.and_eq_true] at h
    simp only [sortArr]
    rw [canonId x h.1, canonIdA xs h.2]

theorem canonIdO (o : JsonObj) (hk : keysSorted o = true) (hv : isCanonO o = true) :
    sortObjEntries o = o := by
  cases o with
  | nil => rfl
  | cons k v rest =>
    simp only [isCanonO, Bool.and_eq_true] at hv
    simp only [sortObjEntries]
    rw [canonId v hv.1, canonIdO rest (keysSorted_tail k v rest hk) hv.2]
    cases rest with
    | nil => rfl
    | cons k2 v2 ys =>
      simp only [keysSorted, Bool.and_eq_true] at hk
      simp only [insertEntry]
      rw [if_pos (keyLt_le _ _ hk.1)]

end

/-- Roundtrip: `loads` undoes `dumps` on canonical documents, tolerating the
stream's trailing newline, at every indent width. -/
theorem loads_dumps (w : Nat) (d : Json) (h : isCanon d = true) :
    loads (dumps w d ++ ['\n']) = some d := by
  unfold dumps
  rw [canonId d h]
  exact loads_render w d

end JD

namespace JD

/-- A safe output line: it contains no newline or carriage return, and it
contains at least one character that is neither `-` nor a space — so it can
never `rstrip` to the `--` sentinel. -/
def lineGood (l : List Char) : Prop :=
  (∀ c ∈ l, ¬c = '\n' ∧ ¬c = '\r') ∧ ∃ c ∈ l, ¬c = '-' ∧ ¬c = ' '

theorem spaces_eq (n : Nat) : ∀ c ∈ spaces n, c = ' ' := by
  induction n with
  | zero => intro c hc; simp [spaces] at hc
  | succ n ih =>
    intro c hc
    simp only [spaces] at hc
    rcases List.mem_cons.mp hc with h | h
    · exact h
    · exact ih c h

theorem hexDigitChar_ok : ∀ m, m < 16 → ¬hexDigitChar m = '\n' ∧ ¬hexDigitChar m = '\r' := by
  decide

theorem escape_no_nlcr (s : List Char) : ∀ c ∈ escape s, ¬c = '\n' ∧ ¬c = '\r' := by
  induction s with
  | nil => intro c hc; simp [escape] at hc
  | cons a as ih =>
    intro c hc
    simp only [escape] at hc
    rcases List.mem_append.mp hc with h | h
    · by_cases h1 : a = '"'
      · subst h1
        exact (by decide : ∀ c ∈ escChar '"', ¬c = '\n' ∧ ¬c = '\r') c h
      · by_cases h2 : a = '\\'
        · subst h2
          exact (by decide : ∀ c ∈ escChar '\\', ¬c = '\n' ∧ ¬c = '\r') c h
        · by_cases h3 : a = '\n'
          · subst h3
            exact (by decide : ∀ c ∈ escChar '\n', ¬c = '\n' ∧ ¬c = '\r') c h
          · by_cases h4 : a = '\t'
            · subst h4
              exact (by decide : ∀ c ∈ escChar '\t', ¬c = '\n' ∧ ¬c = '\r') c h
            · by_cases h5 : a = '\r'
              · subst h5
                exact (by decide : ∀ c ∈ escChar '\r', ¬c = '\n' ∧ ¬c = '\r') c h
              · by_cases h6 : a = '\x08'
                · subst h6
                  exact (by decide : ∀ c ∈ escChar '\x08', ¬c = '\n' ∧ ¬c = '\r') c h
                · by_cases h7 : a = '\x0c'
                  · subst h7
                    exact (by decide : ∀ c ∈ escChar '\x0c', ¬c = '\n' ∧ ¬c = '\r') c h
                  · by_cases h8 : a.toNat < 32
                    · have hesc : escChar a =
                          ['\\', 'u', '0', '0', hexDigitChar (a.toNat / 16),
                            hexDigitChar (a.toNat % 16)] := by
                        simp [escChar, h1, h2, h3, h4, h5, h6, h7, h8]
                      rw [hesc] at h
                      have h16a : a.toNat / 16 < 16 := by omega
                      have h16b : a.toNat % 16 < 16 := by omega
                      rcases List.mem_cons.mp h with h | h
                      · subst h; exact ⟨by decide, by decide⟩
                      rcases List.mem_cons.mp h with h | h
                      · subst h; exact ⟨by decide, by decide⟩
                      rcases List.mem_cons.mp h with h | h
                      · subst h; exact ⟨by decide, by decide⟩
                      rcases List.mem_cons.mp h with h | h
                      · subst h; exact ⟨by decide, by decide⟩
                      rcases List.mem_cons.mp h with h | h
                      · subst h; exact hexDigitChar_ok (a.toNat / 16) h16a
                      rcases List.mem_cons.mp h with h | h
                      · subst h; exact hexDigitChar_ok (a.toNat % 16) h16b
                      · simp at h
                    · have hesc : escChar a = [a] := by
                        simp [escChar, h1, h2, h3, h4, h5, h6, h7, h8]
                      rw [hesc] at h
                      simp at h
                      subst h
                      constructor
                      · intro he; subst he; exact h8 (by decide)
                      · intro he; subst he; exact h8 (by decide)
    · exact ih c h

theorem jstr_no_nlcr (s : List Char) : ∀ c ∈ jstr s, ¬c = '\n' ∧ ¬c = '\r' := by
  intro c hc
  simp only [jstr] at hc
  rcases List.mem_cons.mp hc with h | h
  · subst h; exact ⟨by decide, by decide⟩
  · rcases List.mem_append.mp h with h | h
    · exact escape_no_nlcr s c h
    · simp at h; subst h; exact ⟨by decide, by decide⟩

theorem intChars_good (n : Int) : lineGood (intChars n) := by
  cases n with
  | ofNat m =>
    constructor
    · intro c hc
      have hd := natChars_all_digit m c hc
      exact ⟨digit_ne c hd '\n' (by decide), digit_ne c hd '\r' (by decide)⟩
    · obtain ⟨c, t, hct⟩ := List.exists_cons_of_ne_nil (natChars_ne_nil m)
      have hd : c.isDigit = true := natChars_all_digit m c (by rw [hct]; simp)
      refine ⟨c, ?_, digit_ne c hd '-' (by decide), digit_ne c hd ' ' (by decide)⟩
      simp only [intChars]
      rw [hct]; simp
  | negSucc m =>
    constructor
    · intro c hc
      simp only [intChars] at hc
      rcases List.mem_cons.mp hc with h | h
      · subst h; exact ⟨by decide, by decide⟩
      · have hd := natChars_all_digit (m + 1) c h
        exact ⟨digit_ne c hd '\n' (by decide), digit_ne c hd '\r' (by decide)⟩
    · obtain ⟨c, t, hct⟩ := List.exists_cons_of_ne_nil (natChars_ne_nil (m + 1))
      have hd : c.isDigit = true := natChars_all_digit (m + 1) c (by rw [hct]; simp)
      refine ⟨c, ?_, digit_ne c hd '-' (by decide), digit_ne c hd ' ' (by decide)⟩
      simp only [intChars]
      rw [hct]; simp

theorem jstr_good (s : List Char) : lineGood (jstr s) := by
  refine ⟨jstr_no_nlcr s, '"', by simp [jstr], by decide, by decide⟩

theorem lineGood_indent (i l : List Char) (hi : ∀ c ∈ i, c = ' ') (h : lineGood l) :
    lineGood (i ++ l) := by
  obtain ⟨hall, c, hc, hc1, hc2⟩ := h
  refine ⟨?_, c, by simp [hc], hc1, hc2⟩
  intro c2 hc2'
  rcases List.mem_append.mp hc2' with h | h
  · have := hi c2 h; subst this; exact ⟨by decide, by decide⟩
  · exact hall c2 h

theorem lineGood_comma (l : List Char) (h : lineGood l) : lineGood (l ++ [',']) := by
  obtain ⟨hall, c, hc, hc1, hc2⟩ := h
  refine ⟨?_, c, by simp [hc], hc1, hc2⟩
  intro c2 hc2'
  rcases List.mem_append.mp hc2' with h | h
  · exact hall c2 h
  · simp at h; subst h; exact ⟨by decide, by decide⟩

theorem mem_indentFirst (i : List Char) (L : List (List Char)) (l : List Char)
    (h : l ∈ indentFirst i L) : (∃ l0 ∈ L, l = i ++ l0) ∨ l ∈ L := by
  cases L with
  | nil => simp [indentFirst] at h
  | cons a as =>
    simp only [indentFirst] at h
    rcases List.mem_cons.mp h with h | h
    · exact Or.inl ⟨a, by simp, h⟩
    · exact Or.inr (by simp [h])

theorem mem_addCommaLast (L : List (List Char)) (l : List Char)
    (h : l ∈ addCommaLast L) : ∃ l0 ∈ L, l = l0 ∨ l = l0 ++ [','] := by
  induction L with
  | nil => simp [addCommaLast] at h
  | cons a as ih =>
    cases as with
    | nil =>
      simp only [addCommaLast] at h
      simp at h
      exact ⟨a, by simp, Or.inr h⟩
    | cons b bs =>
      rw [show addCommaLast (a :: b :: bs) = a :: addCommaLast (b :: bs) from rfl] at h
      rcases List.mem_cons.mp h with h | h
      · exact ⟨a, by simp, Or.inl h⟩
      · obtain ⟨l0, hl0, hor⟩ := ih h
        exact ⟨l0, by simp [hl0], hor⟩

mutual

theorem goodRender (w k : Nat) (d : Json) : ∀ l ∈ renderLines w k d, lineGood l := by
  cases d with
  | null =>
    intro l hl
    simp only [renderLines] at hl
    simp at hl
    subst hl
    exact ⟨by decide, 'n', by decide, by decide, by decide⟩
  | bool b =>
    cases b with
    | true =>
      intro l hl
      simp only [renderLines] at hl
      simp at hl
      subst hl
      exact ⟨by decide, 't', by decide, by decide, by decide⟩
    | false =>
      intro l hl
      simp only [renderLines] at hl
      simp at hl
      subst hl
      exact ⟨by decide, 'f', by decide, by decide, by decide⟩
  | num n =>
    intro l hl
    simp only [renderLines] at hl
    simp at hl
    subst hl
    exact intChars_good n
  | str s =>
    intro l hl
    simp only [renderLines] at hl
    simp at hl
    subst hl
    exact jstr_good s
  | arr xs =>
    cases xs with
    | nil =>
      intro l hl
      simp only [renderLines] at hl
      simp at hl
      subst hl
      exact ⟨by decide, '[', by simp, by decide, by decide⟩
    | cons x rest =>
      intro l hl
      rw [show renderLines w k (.arr (.cons x rest)) =
        ['['] :: (renderArr w (k + 1) (.cons x rest) ++ [spaces (w * k) ++ [']']]) from rfl] at hl
      rcases List.mem_cons.mp hl with h | h
      · subst h
        exact ⟨by decide, '[', by simp, by decide, by decide⟩
      · rcases List.mem_append.mp h with h | h
        · exact goodArr w (k + 1) (.cons x rest) l h
        · simp at h
          subst h
          exact lineGood_indent _ _ (spaces_eq _) ⟨by decide, ']', by simp, by decide, by decide⟩
  | obj xs =>
    cases xs with
    | nil =>
      intro l hl
      simp only [renderLines] at hl
      simp at hl
      subst hl
      exact ⟨by decide, '{', by simp, by decide, by decide⟩
    | cons key v rest =>
      intro l hl
      rw [show renderLines w k (.obj (.cons key v rest)) =
        ['{'] :: (renderObj w (k + 1) (.cons key v rest) ++ [spaces (w * k) ++ ['}']])
        from rfl] at hl
      rcases List.mem_cons.mp hl with h | h
      · subst h
        exact ⟨by decide, '{', by simp, by decide, by decide⟩
      · rcases List.mem_append.mp h with h | h
        · exact goodObj w (k + 1) (.cons key v rest) l h
        · simp at h
          subst h
          exact lineGood_indent _ _ (spaces_eq _) ⟨by decide, '}', by simp, by decide, by decide⟩

theorem goodArr (w k : Nat) (a : JsonArr) : ∀ l ∈ renderArr w k a, lineGood l := by
  cases a with
  | nil => intro l hl; simp [renderArr] at hl
  | cons x rest =>
    cases rest with
    | nil =>
      intro l hl
      simp only [renderArr] at hl
      rcases mem_indentFirst _ _ _ hl with ⟨l0, hl0, heq⟩ | h
      · subst heq
        exact lineGood_indent _ _ (spaces_eq _) (goodRender w k x l0 hl0)
      · exact goodRender w k x l h
    | cons y ys =>
      intro l hl
      simp only [renderArr] at hl
      rcases List.mem_append.mp hl with h | h
      · obtain ⟨l0, hl0, hor⟩ := mem_addCommaLast _ _ h
        have hg : lineGood l0 := by
          rcases mem_indentFirst _ _ _ hl0 with ⟨l1, hl1, heq⟩ | hm
          · subst heq
            exact lineGood_indent _ _ (spaces_eq _) (goodRender w k x l1 hl1)
          · exact goodRender w k x l0 hm
        rcases hor with h2 | h2
        · subst h2; exact hg
        · subst h2; exact lineGood_comma _ hg
      · exact goodArr w k (.cons y ys) l h

theorem goodObj (w k : Nat) (o : JsonObj) : ∀ l ∈ renderObj w k o, lineGood l := by
  cases o with
  | nil => intro l hl; simp [renderObj] at hl
  | cons key v rest =>
    have hentry : ∀ l ∈ entryAssemble (spaces (w * k)) key (renderLines w k v), lineGood l := by
      intro l hl
      cases hrv : renderLines w k v with
      | nil => exact absurd hrv (renderLines_ne_nil w k v)
      | cons a as =>
        rw [hrv] at hl
        simp only [entryAssemble] at hl
        rcases List.mem_cons.mp hl with h | h
        · subst h
          have hga : lineGood a := goodRender w k v a (by rw [hrv]; simp)
          obtain ⟨halla, c0, hc0, hc01, hc02⟩ := hga
          refine ⟨?_, '"', by simp [jstr], by decide, by decide⟩
          intro c hc
          rcases List.mem_append.mp hc with h2 | h2
          · rcases List.mem_append.mp h2 with h3 | h3
            · have := spaces_eq _ c h3; subst this; exact ⟨by decide, by decide⟩
            · exact jstr_no_nlcr key c h3
          · rcases List.mem_cons.mp h2 with h3 | h3
            · subst h3; exact ⟨by decide, by decide⟩
            · rcases List.mem_cons.mp h3 with h4 | h4
              · subst h4; exact ⟨by decide, by decide⟩
              · exact halla c h4
        · exact goodRender w k v l (by rw [hrv]; simp [h])
    cases rest with
    | nil =>
      intro l hl
      simp only [renderObj] at hl
      exact hentry l hl
    | cons k2 v2 ys =>
      intro l hl
      simp only [renderObj] at hl
      rcases List.mem_append.mp hl with h | h
      · obtain ⟨l0, hl0, hor⟩ := mem_addCommaLast _ _ h
        have hg : lineGood l0 := hentry l0 hl0
        rcases hor with h2 | h2
        · subst h2; exact hg
        · subst h2; exact lineGood_comma _ hg
      · exact goodObj w k (.cons k2 v2 ys) l h

end

end JD

namespace JD

theorem dropWhile_all_false {α : Type} (p : α → Bool) (m : List α)
    (h : ∀ c ∈ m, p c = false) : m.dropWhile p = m := by
  cases m with
  | nil => rfl
  | cons a as => simp [List.dropWhile_cons, h a (by simp)]

/-- Appending the stream newline to a clean line and `rstrip`ping gives the
line back. -/
theorem rstripCRLF_append_nl (l : List Char) (h : ∀ c ∈ l, ¬c = '\n' ∧ ¬c = '\r') :
    rstripCRLF (l ++ ['\n']) = l := by
  have hside : ∀ c ∈ l.reverse, (fun c : Char => c = '\r' || c = '\n') c = false := by
    intro c hc
    have h2 := h c (List.mem_reverse.mp hc)
    simp [h2.1, h2.2]
  unfold rstripCRLF
  rw [List.reverse_append]
  rw [show ((['\n'] : List Char).reverse ++ l.reverse) = '\n' :: l.reverse from rfl]
  rw [List.dropWhile_cons, if_pos (by decide), dropWhile_all_false _ _ hside,
    List.reverse_reverse]

/-- A good line with the stream newline appended never `rstrip`s to the
default sentinel. -/
theorem lineGood_not_sep (l : List Char) (h : lineGood l) :
    ¬rstripCRLF (l ++ ['\n']) = ['-', '-'] := by
  obtain ⟨hall, c, hc, hc1, hc2⟩ := h
  rw [rstripCRLF_append_nl l hall]
  intro he
  subst he
  simp at hc
  exact hc1 hc

theorem pylines_single (l : List Char) (h : ∀ c ∈ l, ¬c = '\n') :
    pylines (l ++ ['\n']) = [l ++ ['\n']] := by
  induction l with
  | nil => rfl
  | cons c cs ih =>
    have hc : ¬c = '\n' := h c (by simp)
    rw [List.cons_append, pylines_cons_ne c _ hc]
    rw [ih (fun c2 hc2 => h c2 (by simp [hc2]))]

/-- Splitting the joined lines (plus final newline) back into lines. -/
theorem pylines_joinNL (L : List (List Char)) (hne : L ≠ [])
    (h : ∀ l ∈ L, ∀ c ∈ l, ¬c = '\n') :
    pylines (joinNL L ++ ['\n']) = L.map (· ++ ['\n']) := by
  induction L with
  | nil => exact absurd rfl hne
  | cons a as ih =>
    cases as with
    | nil =>
      rw [show joinNL [a] = a from rfl]
      rw [pylines_single a (h a (by simp))]
      rfl
    | cons b bs =>
      rw [joinNL_cons _ _ (by simp)]
      rw [show (a ++ '\n' :: joinNL (b :: bs)) ++ ['\n'] =
        (a ++ ['\n']) ++ (joinNL (b :: bs) ++ ['\n']) from by simp]
      rw [pylines_append _ _ (Or.inr (by rw [List.getLast?_concat]))]
      rw [pylines_single a (h a (by simp))]
      rw [ih (by simp) (fun l hl => h l (by simp [hl]))]
      rfl

/-- Lines of one document block in the stream. -/
def docLines (w : Nat) (d : Json) : List (List Char) :=
  (renderLines w 0 d).map (· ++ ['\n'])

theorem flatten_docLines (w : Nat) (d : Json) :
    (docLines w d).flatten = joinNL (renderLines w 0 d) ++ ['\n'] := by
  unfold docLines
  generalize hL : renderLines w 0 d = L
  have hne : L ≠ [] := by rw [← hL]; exact renderLines_ne_nil w 0 d
  clear hL
  induction L with
  | nil => exact absurd rfl hne
  | cons a as ih =>
    cases as with
    | nil => simp [joinNL]
    | cons b bs =>
      rw [show (List.map (· ++ ['\n']) (a :: b :: bs)).flatten =
        (a ++ ['\n']) ++ (List.map (· ++ ['\n']) (b :: bs)).flatten from by simp]
      rw [ih (by simp), joinNL_cons a (b :: bs) (by simp)]
      simp

theorem docLines_no_sep (w : Nat) (d : Json) :
    ∀ l ∈ docLines w d, ¬rstripCRLF l = ['-', '-'] := by
  intro l hl
  unfold docLines at hl
  obtain ⟨l0, hl0, heq⟩ := List.mem_map.mp hl
  subst heq
  exact lineGood_not_sep l0 (goodRender w 0 d l0 hl0)

/-- Frame lines that contain no sentinel are accumulated into the buffer. -/
theorem frameAux_pass (sep : List Char) (L : List (List Char))
    (h : ∀ l ∈ L, ¬rstripCRLF l = sep) :
    ∀ (buf : List (List Char)) (ls : List (List Char)),
      frameAux sep buf (L ++ ls) = frameAux sep (buf ++ L) ls := by
  induction L with
  | nil => intro buf ls; simp
  | cons a as ih =>
    intro buf ls
    rw [List.cons_append]
    rw [show frameAux sep buf (a :: (as ++ ls)) = frameAux sep (buf ++ [a]) (as ++ ls) from by
      simp [frameAux, h a (by simp)]]
    rw [ih (fun l hl => h l (by simp [hl])) (buf ++ [a]) ls]
    simp

/-- Framing the concatenated document blocks recovers one chunk per
document, with an empty trailing buffer. -/
theorem frame_blocks (w : Nat) (docs : List Json) :
    frameAux ['-', '-'] []
        (docs.flatMap (fun d => docLines w d ++ [['-', '-', '\n']])) =
      (docs.map (docLines w), []) := by
  induction docs with
  | nil => rfl
  | cons d ds ih =>
    rw [show (d :: ds).flatMap (fun d => docLines w d ++ [['-', '-', '\n']]) =
      docLines w d ++ (['-', '-', '\n'] ::
        ds.flatMap (fun d => docLines w d ++ [['-', '-', '\n']])) from by simp]
    rw [frameAux_pass _ _ (docLines_no_sep w d) [] _]
    rw [show frameAux ['-', '-'] ([] ++ docLines w d)
        (['-', '-', '\n'] :: ds.flatMap (fun d => docLines w d ++ [['-', '-', '\n']])) =
      (([] ++ docLines w d) ::
        (frameAux ['-', '-'] []
          (ds.flatMap (fun d => docLines w d ++ [['-', '-', '\n']]))).1,
        (frameAux ['-', '-'] []
          (ds.flatMap (fun d => docLines w d ++ [['-', '-', '\n']]))).2) from by
      simp [frameAux, show rstripCRLF ['-', '-', '\n'] = ['-', '-'] from by decide]]
    rw [ih]
    simp

end JD

namespace JD

/-- The concatenated blocks a dedup-disabled writer emits. -/
def wblocks (w : Nat) (blob : List Char) : List Json → List Char
  | [] => []
  | d :: ds => dumps w d ++ blob ++ wblocks w blob ds

/-- A dedup-disabled writer appends one block per document. -/
theorem writemany_out_none :
    ∀ (docs : List Json) (wr : DumpWriter), wr.seen = none →
      (wr.writemany docs).2.out = wr.out ++ wblocks wr.indent wr.separator_blob docs := by
  intro docs
  induction docs with
  | nil => intro wr _; simp [DumpWriter.writemany, wblocks]
  | cons d ds ih =>
    intro wr hseen
    have hw : wr.write d =
        (true,
          { separator_blob := wr.separator_blob
            out := wr.out ++ dumps wr.indent d ++ wr.separator_blob
            seen := wr.seen
            obj_num := wr.obj_num + 1
            indent := wr.indent }) := by
      simp [DumpWriter.write, hseen]
    rw [show wr.writemany (d :: ds) =
      ((if (wr.write d).1 then 1 else 0) + ((wr.write d).2.writemany ds).1,
        ((wr.write d).2.writemany ds).2) from rfl]
    rw [hw]
    rw [ih _ (by simpa using hseen)]
    simp [wblocks]

theorem pylines_wblocks (w : Nat) (docs : List Json)
    (hc : ∀ d ∈ docs, isCanon d = true) :
    pylines (wblocks w ['\n', '-', '-', '\n'] docs) =
      docs.flatMap (fun d => docLines w d ++ [['-', '-', '\n']]) := by
  induction docs with
  | nil => rfl
  | cons d ds ih =>
    have hcd : isCanon d = true := hc d (by simp)
    have hdump : dumps w d = joinNL (renderLines w 0 d) := by
      unfold dumps
      rw [canonId d hcd]
    rw [show wblocks w ['\n', '-', '-', '\n'] (d :: ds) =
      dumps w d ++ ['\n', '-', '-', '\n'] ++ wblocks w ['\n', '-', '-', '\n'] ds from rfl]
    rw [hdump]
    rw [show joinNL (renderLines w 0 d) ++ ['\n', '-', '-', '\n'] ++
        wblocks w ['\n', '-', '-', '\n'] ds =
      (joinNL (renderLines w 0 d) ++ ['\n']) ++
        ((['-', '-', '\n'] : List Char) ++ wblocks w ['\n', '-', '-', '\n'] ds) from by simp]
    rw [pylines_append _ _ (Or.inr (by rw [List.getLast?_concat]))]
    rw [pylines_append (['-', '-', '\n'] : List Char) _ (Or.inr (by rfl))]
    have hlines : ∀ l ∈ renderLines w 0 d, ∀ c ∈ l, ¬c = '\n' := by
      intro l hl c hcm
      exact ((goodRender w 0 d l hl).1 c hcm).1
    rw [pylines_joinNL _ (renderLines_ne_nil w 0 d) hlines]
    rw [ih (fun x hx => hc x (by simp [hx]))]
    rw [show pylines ['-', '-', '\n'] = [['-', '-', '\n']] from rfl]
    simp [docLines]

/-- Reading back the framed chunks with dedup disabled yields every
document in order. -/
theorem readTrace_docLines (w : Nat) (docs : List Json)
    (hc : ∀ d ∈ docs, isCanon d = true) :
    ∀ n : Nat, readTrace none false n (docs.map (docLines w)) =
      (docs, n + docs.length, none) := by
  induction docs with
  | nil => intro n; simp [readTrace]
  | cons d ds ih =>
    intro n
    have hload : loads (docLines w d).flatten = some d := by
      rw [flatten_docLines]
      have hcd : isCanon d = true := hc d (by simp)
      exact loads_render w d
    rw [show (d :: ds).map (docLines w) = docLines w d :: ds.map (docLines w) from rfl]
    rw [show readTrace none false n (docLines w d :: ds.map (docLines w)) =
      (match loads (docLines w d).flatten with
       | none => ([], n, some RErr.jsonErr)
       | some d2 =>
         let r := readTrace none false (n + 1) (ds.map (docLines w))
         (d2 :: r.1, r.2.1, r.2.2)) from rfl]
    rw [hload]
    rw [show (match some d with
       | none => (([] : List Json), n, some RErr.jsonErr)
       | some d2 =>
         let r := readTrace none false (n + 1) (ds.map (docLines w))
         (d2 :: r.1, r.2.1, r.2.2)) =
      (d :: (readTrace none false (n + 1) (ds.map (docLines w))).1,
        (readTrace none false (n + 1) (ds.map (docLines w))).2.1,
        (readTrace none false (n + 1) (ds.map (docLines w))).2.2) from rfl]
    rw [ih (fun x hx => hc x (by simp [hx])) (n + 1)]
    simp
    omega

end JD

namespace JD

/-- Python's substring containment `needle in hay` (the empty needle is in
every string), used by `mode not in 'rwax'` and `mode in 'ra'`. -/
def listPrefixB : List Char → List Char → Bool
  | [], _ => true
  | _ :: _, [] => false
  | a :: as, b :: bs => a = b && listPrefixB as bs

def pySubstr (needle : List Char) : List Char → Bool
  | [] => listPrefixB needle []
  | c :: cs => listPrefixB needle (c :: cs) || pySubstr needle cs

/-- Model of `os.path.basename`. -/
def basename (p : List Char) : List Char :=
  (p.reverse.takeWhile (fun c => !(c = '/'))).reverse

/-- Model of `str.endswith`. -/
def endsW (s suf : List Char) : Bool := listPrefixB suf.reverse s.reverse

/-- File-system model: an association list from paths to contents. -/
abbrev FS := List (List Char × List Char)

def fsGet : FS → List Char → Option (List Char)
  | [], _ => none
  | (q, c) :: rest, p => if q = p then some c else fsGet rest p

def fsMem (fs : FS) (p : List Char) : Bool := (fsGet fs p).isSome

def fsRemove (fs : FS) (p : List Char) : FS := fs.filter (fun e => !(e.1 = p))

def fsSet (fs : FS) (p c : List Char) : FS := fsRemove fs p ++ [(p, c)]

/-- The two gzip magic bytes, as read by the sniff. -/
def gzMagic : List Char := ['\x1f', '\x8b']

/-- What the Python attribute `self.gz` holds after `__init__`: `None`, the
leftover boolean `True` from suffix detection, or a compression wrapper
object. -/
inductive GzSlot where
  | noneS : GzSlot
  | trueFlag : GzSlot
  | wrapperS : GzSlot
  deriving DecidableEq

inductive RWKind where
  | readerK : RWKind
  | writerK : RWKind
  deriving DecidableEq

/-- What object `self.rw_obj` wraps: the staging file, the gzip wrapper, or
the Python boolean `True` (a bug state: every use raises AttributeError). -/
inductive WTarget where
  | fileT : WTarget
  | gzWrapperT : WTarget
  | invalidBoolT : WTarget
  deriving DecidableEq

/-- Errors raised by `DumpOpener.__init__`/`__exit__`: the unsupported-mode
`IOError`, `FileNotFoundError`, `FileExistsError`, a failed `assert`, and
the `AttributeError` from calling `close()` on the leftover boolean. -/
inductive OpenErr where
  | unsupportedMode : OpenErr
  | notFound : OpenErr
  | alreadyExists : OpenErr
  | assertFail : OpenErr
  | attributeError : OpenErr
  deriving DecidableEq

structure DumpOpener where
  mode : List Char
  path : List Char
  temp_path : Option (List Char)
  gz : GzSlot
  rwKind : RWKind
  rwTarget : WTarget
  transportGzip : Bool
  deriving DecidableEq

/-- Result of `__init__`: the error raised (if any), the constructed opener
(if none), the file system afterwards, and how many file opens/reads were
performed before returning. -/
structure OpenResult where
  err : Option OpenErr
  opener : Option DumpOpener
  fs : FS
  ioOps : Nat
  deriving DecidableEq

def rwaxChars : List Char := ['r', 'w', 'a', 'x']

def raChars : List Char := ['r', 'a']

def wxChars : List Char := ['w', 'x']

def partialSuffix : List Char := ['.', 'p', 'a', 'r', 't', 'i', 'a', 'l']

def gzSuffix : List Char := ['.', 'g', 'z']

def mkOpener (mode path : List Char) (temp : Option (List Char)) (g : GzSlot)
    (rk : RWKind) (wt : WTarget) (tg : Bool) : DumpOpener :=
  { mode := mode, path := path, temp_path := temp, gz := g, rwKind := rk,
    rwTarget := wt, transportGzip := tg }

def mkRes (e : Option OpenErr) (op : Option DumpOpener) (fs : FS) (n : Nat) : OpenResult :=
  { err := e, opener := op, fs := fs, ioOps := n }

/-- Model of `DumpOpener.__init__` over the file-system model.  Mirrors the source:
the substring mode check, the read/append sniff branch (where plain
`open(path, 'at')` creates a missing file), and the write/create branch
with its suffix detection and staging-file creation. -/
def DumpOpener.init (fs : FS) (path : List Char) (mode : List Char) (gz : Option Bool) :
    OpenResult :=
  if !pySubstr mode rwaxChars then
    mkRes (some .unsupportedMode) none fs 0
  else if pySubstr mode raChars then
    match gz with
    | none =>
      match fsGet fs path with
      | none => mkRes (some .notFound) none fs 1
      | some content =>
        if mode = ['r'] then
          mkRes none (some (mkOpener mode path none .noneS .readerK .fileT
            (content.take 2 = gzMagic))) fs 2
        else if mode = ['a'] then
          mkRes none (some (mkOpener mode path none .noneS .writerK .fileT
            (content.take 2 = gzMagic))) fs 2
        else
          mkRes (some .assertFail) none fs 1
    | some g =>
      if mode = ['r'] then
        match fsGet fs path with
        | none => mkRes (some .notFound) none fs 1
        | some _ =>
          mkRes none (some (mkOpener mode path none .noneS .readerK .fileT g)) fs 1
      else if mode = ['a'] then
        match fsGet fs path with
        | none =>
          mkRes none (some (mkOpener mode path none .noneS .writerK .fileT g))
            (fsSet fs path []) 1
        | some _ =>
          mkRes none (some (mkOpener mode path none .noneS .writerK .fileT g)) fs 1
      else
        mkRes (some .assertFail) none fs 0
  else if !pySubstr mode wxChars then
    mkRes (some .assertFail) none fs 0
  else if mode = ['x'] && fsMem fs path then
    mkRes (some .alreadyExists) none fs 0
  else
    let filename0 := basename path
    let temp := path ++ partialSuffix
    let f1 := if endsW filename0 gzSuffix then filename0.take (filename0.length - 3)
      else filename0
    let sawGz := endsW filename0 gzSuffix || endsW f1 ['g', 'z']
    match gz with
    | none =>
      if sawGz then
        mkRes none (some (mkOpener mode path (some temp) .wrapperS .writerK .gzWrapperT true))
          (fsSet fs temp []) 1
      else
        mkRes none (some (mkOpener mode path (some temp) .noneS .writerK .fileT false))
          (fsSet fs temp []) 1
    | some true =>
      mkRes none (some (mkOpener mode path (some temp) .wrapperS .writerK .gzWrapperT true))
        (fsSet fs temp []) 1
    | some false =>
      if sawGz then
        mkRes none
          (some (mkOpener mode path (some temp) .trueFlag .writerK .invalidBoolT false))
          (fsSet fs temp []) 1
      else
        mkRes none (some (mkOpener mode path (some temp) .noneS .writerK .fileT false))
          (fsSet fs temp []) 1

structure ExitResult where
  err : Option OpenErr
  fs : FS
  deriving DecidableEq

/-- Model of `DumpOpener.__exit__` over the file-system model.  Faithful to the
source, which ignores `exc_type`/`exc_val`/`exc_tb` entirely: the
close-and-install sequence runs whether or not the body raised. -/
def DumpOpener.exit (o : DumpOpener) (_excRaised : Bool) (fs : FS) : ExitResult :=
  if o.gz = GzSlot.trueFlag then { err := some .attributeError, fs := fs }
  else
    match o.temp_path with
    | none => { err := none, fs := fs }
    | some t =>
      if fsMem fs o.path then
        if o.mode = ['x'] then { err := some .alreadyExists, fs := fs }
        else
          match fsGet fs t with
          | none => { err := some .notFound, fs := fsRemove fs o.path }
          | some c => { err := none, fs := fsSet (fsRemove (fsRemove fs o.path) t) o.path c }
      else
        match fsGet fs t with
        | none => { err := some .notFound, fs := fs }
        | some c => { err := none, fs := fsSet (fsRemove fs t) o.path c }

end JD

namespace JD

/-- Helper: the head of a `dropWhile` result fails the predicate.  Used to
show `json.loads` fails on whitespace-only text (including the form-feed
and vertical-tab characters that `str.strip` removes but JSON does not
treat as token whitespace). -/
theorem dropWhile_head_false {α : Type} (p : α → Bool) (s : List α) (c : α) (r : List α)
    (h : s.dropWhile p = c :: r) : p c = false := by
  induction s with
  | nil => simp at h
  | cons a as ih =>
    rw [List.dropWhile_cons] at h
    by_cases hp : p a = true
    · rw [if_pos hp] at h
      exact ih h
    · rw [if_neg hp] at h
      cases h
      cases hpa : p c with
      | false => rfl
      | true => exact absurd hpa hp

theorem loads_ws_none (s : List Char) (h : ∀ c ∈ s, pySpace c = true) : loads s = none := by
  unfold loads
  cases hskip : skipWs s with
  | nil =>
    rw [parseV_succ s.length s, hskip]
  | cons c r =>
    have hcmem : c ∈ s := by
      have hm : c ∈ skipWs s := by rw [hskip]; simp
      exact (List.dropWhile_sublist jsonWs).mem hm
    have hps : pySpace c = true := h c hcmem
    have hjw : jsonWs c = false := dropWhile_head_false jsonWs s c r hskip
    have hc2 : c = '\x0b' ∨ c = '\x0c' := by
      unfold pySpace at hps
      unfold jsonWs at hjw
      rcases Bool.or_eq_true_iff.mp hps with h1 | h1
      · rcases Bool.or_eq_true_iff.mp h1 with h1 | h1
        · rcases Bool.or_eq_true_iff.mp h1 with h1 | h1
          · rcases Bool.or_eq_true_iff.mp h1 with h1 | h1
            · rcases Bool.or_eq_true_iff.mp h1 with h1 | h1
              · exfalso; simp at h1; rw [h1] at hjw; simp at hjw
              · exfalso; simp at h1; rw [h1] at hjw; simp at hjw
            · exfalso; simp at h1; rw [h1] at hjw; simp at hjw
          · exfalso; simp at h1; rw [h1] at hjw; simp at hjw
        · exact Or.inl (by simpa using h1)
      · exact Or.inr (by simpa using h1)
    rw [parseV_succ_cons s.length s c r hskip]
    rcases hc2 with hc2 | hc2 <;> subst hc2 <;> simp [stripTok, tokNull, tokTrue, tokFalse]

end JD

namespace JD

/-! ### Scenario constants for the claims -/

/-- The document `{"a": 1}`. -/
def objA : Json := .obj (.cons ['a'] (.num 1) .nil)

/-- The document `{"b": 2}`. -/
def objB : Json := .obj (.cons ['b'] (.num 2) .nil)

/-- One line of stream text holding the compact form of `objA`. -/
def docLineA : List Char := ['{', '"', 'a', '"', ':', '1', '}', '\n']

/-- One line of stream text holding the compact form of `objB`. -/
def docLineB : List Char := ['{', '"', 'b', '"', ':', '2', '}', '\n']

/-- A sentinel line of the stream. -/
def sentLine : List Char := ['-', '-', '\n']

/-- The default separator. -/
def dashSep : List Char := ['-', '-']

def strayTail : List Char := ['s', 't', 'r', 'a', 'y']

/-- Example path `f`. -/
def pathF : List Char := ['f']

/-- Example path `d.gz`, whose basename carries the gzip suffix. -/
def pathGz : List Char := ['d', '.', 'g', 'z']

/-- Example path `d.tgz`, which ends in `gz` but not `.gz`. -/
def pathTgz : List Char := ['d', '.', 't', 'g', 'z']

def fsOneF : FS := [(pathF, ['x', 'y'])]

def oldContent : List Char := ['O', 'L', 'D']

def partialContent : List Char := ['{', '"']

/-- The opener state `DumpOpener.init` builds for a plain `w`-mode
transaction on `pathF`. -/
def openerW : DumpOpener :=
  mkOpener ['w'] pathF (some (pathF ++ partialSuffix)) .noneS .writerK .fileT false

/-- The file system mid-transaction: the old final file still present, the
staging file holding the partial output written before the body raised. -/
def fsMidWrite : FS :=
  fsSet (DumpOpener.init [(pathF, oldContent)] pathF ['w'] none).fs
    (pathF ++ partialSuffix) partialContent

end JD

namespace JD

/-- Claim C2: the separator framer signals a FormatError on exhaustion iff
non-whitespace content remains after the last sentinel line (an input
ending in a sentinel, or with a whitespace-only tail, ends cleanly); in
particular, reading the stream holding one document, a sentinel, and the
unterminated tail `stray` yields the document and then raises the framing
error. -/
theorem claim_C2_framer_exhaustion :
    (∀ (sep : List Char) (lines : List (List Char)),
      framerBad sep lines = true ↔
        ∃ c ∈ (afterLastSep sep lines).flatten, ¬pySpace c = true) ∧
    readStream true dashSep (docLineA ++ sentLine ++ strayTail) =
      ([objA], 1, some .frameErr) := by
  constructor
  · intro sep lines
    unfold framerBad
    rw [framerTail_eq_afterLastSep]
    unfold nonWsB
    rw [List.any_eq_true]
    constructor
    · rintro ⟨c, hc, hn⟩
      exact ⟨c, hc, by simpa using hn⟩
    · rintro ⟨c, hc, hn⟩
      exact ⟨c, hc, by simpa using hn⟩
  · decide

/-- Witness for claim C2 at a concrete input: a lone unterminated line is
flagged as a framing error. -/
theorem claim_C2_witness :
    framerBad ['-', '-'] [['x']] = true :=
  (claim_C2_framer_exhaustion.1 ['-', '-'] [['x']]).mpr ⟨'x', by decide, by decide⟩

/-- Claim C10: a sentinel line with no non-whitespace content since the
previous sentinel produces an empty (or whitespace-only) chunk, which the
reader hands to the JSON decoder; decoding fails, so the pull raises a
FormatError instead of silently skipping the chunk.  The first conjunct
covers any whitespace-only chunk under any dedup state, the second shows a
sentinel-headed input frames an empty leading chunk, and the third runs the
concrete adjacent-sentinel stream. -/
theorem claim_C10_empty_chunk :
    (∀ (seen : Option (List (List Char))) (bad : Bool) (c : List (List Char))
        (rest : List (List (List Char))),
      (∀ ch ∈ c.flatten, pySpace ch = true) →
      pullNext seen bad (c :: rest) = .err .jsonErr) ∧
    (∀ (sep : List Char) (l : List Char) (lines : List (List Char)),
      rstripCRLF l = sep →
      framerChunks sep (l :: lines) = [] :: framerChunks sep lines) ∧
    readStream true dashSep (sentLine ++ docLineA ++ sentLine) =
      ([], 0, some .jsonErr) := by
  refine ⟨?_, ?_, by decide⟩
  · intro seen bad c rest h
    rw [show pullNext seen bad (c :: rest) =
      (match loads c.flatten with
       | none => PullResult.err .jsonErr
       | some d =>
         match seen with
         | none => PullResult.doc d rest none
         | some s =>
           if canonDump d ∈ s then pullNext (some s) bad rest
           else PullResult.doc d rest (some (canonDump d :: s))) from rfl]
    rw [loads_ws_none c.flatten h]
  · intro sep l lines hl
    unfold framerChunks
    simp [frameAux, hl]

/-- Witness for claim C10: the empty chunk framed by two adjacent
sentinels makes the pull fail with a decode error even mid-stream. -/
theorem claim_C10_witness :
    pullNext (some []) false [[], [docLineA]] = .err .jsonErr :=
  claim_C10_empty_chunk.1 (some []) false [] [[docLineA]] (by decide)

/-- Claim C4: writing the same document twice to a fresh dedup-enabled
writer appends exactly one block (one copy of the document) to the output
stream, returns true then false, and the rejected second call performs no
output and leaves the whole writer state — seen-set and written-count
included — unchanged. -/
theorem claim_C4_write_dedup (sep : List Char) (w : Nat) (d : Json) :
    (mkWriter sep true w).write d =
      (true,
        { separator_blob := '\n' :: (sep ++ ['\n'])
          out := dumps w d ++ '\n' :: (sep ++ ['\n'])
          seen := some [dumps w d]
          obj_num := 1
          indent := w }) ∧
    ((mkWriter sep true w).write d).2.write d =
      (false, ((mkWriter sep true w).write d).2) := by
  have h1 : (mkWriter sep true w).write d =
      (true,
        { separator_blob := '\n' :: (sep ++ ['\n'])
          out := dumps w d ++ '\n' :: (sep ++ ['\n'])
          seen := some [dumps w d]
          obj_num := 1
          indent := w }) := by
    simp [mkWriter, DumpWriter.write]
  refine ⟨h1, ?_⟩
  rw [h1]
  simp [DumpWriter.write]

/-- Witness for claim C4 at concrete inputs. -/
theorem claim_C4_witness :
    (mkWriter dashSep true 4).write objA =
      (true,
        { separator_blob := '\n' :: (dashSep ++ ['\n'])
          out := dumps 4 objA ++ '\n' :: (dashSep ++ ['\n'])
          seen := some [dumps 4 objA]
          obj_num := 1
          indent := 4 }) ∧
    ((mkWriter dashSep true 4).write objA).2.write objA =
      (false, ((mkWriter dashSep true 4).write objA).2) :=
  claim_C4_write_dedup dashSep 4 objA

/-- Claim C5: reading the three-block stream `{"a":1} / {"a":1} / {"b":2}`
with dedup enabled yields exactly the two distinct documents in order with
yielded-count 2; and in general a pull skips any chunk that decodes to a
document whose canonical form is already in the seen-set. -/
theorem claim_C5_read_dedup :
    readStream true dashSep
        (docLineA ++ sentLine ++ docLineA ++ sentLine ++ docLineB ++ sentLine) =
      ([objA, objB], 2, none) ∧
    (∀ (s : List (List Char)) (bad : Bool) (c : List (List Char))
        (rest : List (List (List Char))) (d : Json),
      loads c.flatten = some d → canonDump d ∈ s →
      pullNext (some s) bad (c :: rest) = pullNext (some s) bad rest) := by
  refine ⟨by decide, ?_⟩
  intro s bad c rest d hload hmem
  rw [show pullNext (some s) bad (c :: rest) =
    (match loads c.flatten with
     | none => PullResult.err .jsonErr
     | some d2 =>
       if canonDump d2 ∈ s then pullNext (some s) bad rest
       else PullResult.doc d2 rest (some (canonDump d2 :: s))) from rfl]
  rw [hload]
  simp [hmem]

/-- Witness for claim C5: a duplicate of `{"a": 1}` at the head of the
chunk stream is skipped, and the pull moves on to the rest. -/
theorem claim_C5_witness :
    pullNext (some [canonDump objA]) false [[docLineA]] =
      pullNext (some [canonDump objA]) false [] :=
  claim_C5_read_dedup.2 [canonDump objA] false [docLineA] [] objA (by decide) (by decide)

/-- Claim C3: writing any finite sequence of documents through a
dedup-disabled writer and reading the stream back through a dedup-disabled
reader yields exactly the same documents, in order, with the reader's
yielded-count equal to their number.  Documents are taken in canonical form
(object keys sorted, as Python dict equality ignores key order); numbers
are modelled as integers, so every numeric value is finite. -/
theorem claim_C3_roundtrip (docs : List Json) (w : Nat)
    (hc : ∀ d ∈ docs, isCanon d = true) :
    readStream false dashSep
        ((DumpWriter.writemany (mkWriter dashSep false w) docs).2.out) =
      (docs, docs.length, none) := by
  have hout : (DumpWriter.writemany (mkWriter dashSep false w) docs).2.out =
      wblocks w ['\n', '-', '-', '\n'] docs := by
    rw [writemany_out_none docs _ rfl]
    rfl
  rw [hout]
  unfold readStream framerChunks framerBad framerTail
  rw [show (dashSep : List Char) = ['-', '-'] from rfl]
  rw [pylines_wblocks w docs hc, frame_blocks w docs]
  simpa using readTrace_docLines w docs hc 0

/-- Witness for claim C3: a concrete three-document round trip. -/
theorem claim_C3_witness :
    (∀ d ∈ [objA, Json.arr (.cons (.num (-3)) (.cons (.str ['h', 'i']) .nil)), Json.null],
      isCanon d = true) ∧
    readStream false dashSep
        ((DumpWriter.writemany (mkWriter dashSep false 4)
          [objA, Json.arr (.cons (.num (-3)) (.cons (.str ['h', 'i']) .nil)),
            Json.null]).2.out) =
      ([objA, Json.arr (.cons (.num (-3)) (.cons (.str ['h', 'i']) .nil)), Json.null],
        3, none) :=
  ⟨by decide,
    claim_C3_roundtrip
      [objA, Json.arr (.cons (.num (-3)) (.cons (.str ['h', 'i']) .nil)), Json.null]
      4 (by decide)⟩

end JD

namespace JD

/-- Claim C1 is violated by the code (code bug): `DumpOpener.__exit__`
ignores `exc_type` entirely, so when the body of a write transaction
raises, the exit handler still removes the old final file and renames the
partial staging file onto the final path.  Concretely: a `w`-mode
transaction over a final path holding `OLD`, whose body raises after
writing a partial block to the staging file, ends with the final path
holding the partial block, the old content destroyed, and the staging
artifact gone — the exit handler behaving identically whether or not an
exception was raised. -/
theorem claim_C1_exit_commits_on_error :
    (DumpOpener.init [(pathF, oldContent)] pathF ['w'] none).opener = some openerW ∧
    openerW.exit true fsMidWrite = openerW.exit false fsMidWrite ∧
    (openerW.exit true fsMidWrite).err = none ∧
    fsGet (openerW.exit true fsMidWrite).fs pathF = some partialContent ∧
    fsGet (openerW.exit true fsMidWrite).fs (pathF ++ partialSuffix) = none ∧
    fsGet [(pathF, oldContent)] pathF = some oldContent ∧
    ¬partialContent = oldContent := by
  refine ⟨by decide, by decide, by decide, by decide, by decide, by decide, by decide⟩

/-- Claim C6 is violated by the code (code bug): the mode check is the
Python substring test `mode not in 'rwax'`.  The empty mode string passes
it, reaches the read/append branch, performs the gzip sniff read (I/O!)
and then dies on the `assert mode == 'a'`; the mode string `rw` also
passes the check (it is a substring of `rwax`) and dies on
`assert mode in 'wx'`.  Neither raises the unsupported-mode error.  A mode
that is not a substring, such as `q`, does get the unsupported-mode error
with no I/O. -/
theorem claim_C6_substring_mode_check :
    pySubstr [] rwaxChars = true ∧
    pySubstr ['r', 'w'] rwaxChars = true ∧
    (DumpOpener.init fsOneF pathF [] none).err = some .assertFail ∧
    (DumpOpener.init fsOneF pathF [] none).ioOps = 1 ∧
    (DumpOpener.init fsOneF pathF ['r', 'w'] none).err = some .assertFail ∧
    (DumpOpener.init fsOneF pathF ['r', 'w'] none).ioOps = 0 ∧
    DumpOpener.init fsOneF pathF ['q'] none =
      mkRes (some .unsupportedMode) none fsOneF 0 := by
  refine ⟨by decide, by decide, by decide, by decide, by decide, by decide, by decide⟩

/-- Claim C7 is violated by the code (code bug) in one corner: with a
`.gz`-suffixed filename and an explicit `gz=False` override, the staging
file is opened as plain text while `self.gz` keeps the leftover boolean
`True` from suffix detection, so the stream writer is bound to a boolean
and the close path raises an AttributeError — gzip is not used, contrary
to the claimed suffix-over-override precedence.  In the non-conflicting
cases the transport does follow the suffix: `.gz` and `tgz` filenames with
no override choose gzip. -/
theorem claim_C7_transport_selection :
    (DumpOpener.init [] pathGz ['w'] (some false)).opener =
      some (mkOpener ['w'] pathGz (some (pathGz ++ partialSuffix)) .trueFlag .writerK
        .invalidBoolT false) ∧
    ((mkOpener ['w'] pathGz (some (pathGz ++ partialSuffix)) .trueFlag .writerK
        .invalidBoolT false).exit false
      (fsSet [] (pathGz ++ partialSuffix) [])).err = some .attributeError ∧
    (DumpOpener.init [] pathGz ['w'] none).opener =
      some (mkOpener ['w'] pathGz (some (pathGz ++ partialSuffix)) .wrapperS .writerK
        .gzWrapperT true) ∧
    (DumpOpener.init [] pathTgz ['w'] none).opener =
      some (mkOpener ['w'] pathTgz (some (pathTgz ++ partialSuffix)) .wrapperS .writerK
        .gzWrapperT true) ∧
    (DumpOpener.init [] pathF ['w'] (some true)).opener =
      some (mkOpener ['w'] pathF (some (pathF ++ partialSuffix)) .wrapperS .writerK
        .gzWrapperT true) ∧
    (DumpOpener.init [] pathF ['w'] none).opener =
      some (mkOpener ['w'] pathF (some (pathF ++ partialSuffix)) .noneS .writerK
        .fileT false) := by
  refine ⟨by decide, by decide, by decide, by decide, by decide, by decide⟩

/-- Claim C8: an exclusive-create transaction never overwrites an existing
final path.  At open time, an existing final path raises the
already-exists error before any staging file is created (the file system
is untouched, no file was opened).  At commit time, if the final path
exists, the exit handler raises before the remove/rename statements, so
the file system is left exactly as it was — and in any opener state whose
`gz` slot is not the corrupted leftover boolean, the error is specifically
the already-exists conflict error. -/
theorem claim_C8_exclusive_create (fs fs2 : FS) (p t : List Char) (gz : Option Bool)
    (o : DumpOpener) (e : Bool) :
    (fsMem fs p = true →
      DumpOpener.init fs p ['x'] gz = mkRes (some .alreadyExists) none fs 0) ∧
    (o.mode = ['x'] → o.temp_path = some t → fsMem fs2 o.path = true →
      (o.exit e fs2).fs = fs2 ∧ (o.exit e fs2).err.isSome = true ∧
      (¬o.gz = GzSlot.trueFlag → (o.exit e fs2).err = some .alreadyExists)) := by
  constructor
  · intro hmem
    unfold DumpOpener.init
    rw [show (!pySubstr ['x'] rwaxChars) = false from by decide, if_neg (by simp)]
    rw [show pySubstr ['x'] raChars = false from by decide, if_neg (by simp)]
    rw [show (!pySubstr ['x'] wxChars) = false from by decide, if_neg (by simp)]
    rw [if_pos (by simp [hmem])]
  · intro hmode htemp hmem
    by_cases hgz : o.gz = GzSlot.trueFlag
    · refine ⟨?_, ?_, fun hc => absurd hgz hc⟩
      · unfold DumpOpener.exit
        rw [if_pos hgz]
      · unfold DumpOpener.exit
        rw [if_pos hgz]
        rfl
    · have hexit : o.exit e fs2 = { err := some OpenErr.alreadyExists, fs := fs2 } := by
        unfold DumpOpener.exit
        rw [if_neg hgz, htemp]
        simp [hmem, hmode]
      refine ⟨by rw [hexit], by rw [hexit]; rfl, fun _ => by rw [hexit]⟩

/-- Witness for claim C8: a concrete exclusive-create conflict at open
time and at commit time. -/
theorem claim_C8_witness :
    DumpOpener.init fsOneF pathF ['x'] none =
      mkRes (some .alreadyExists) none fsOneF 0 ∧
    ((mkOpener ['x'] pathF (some (pathF ++ partialSuffix)) .noneS .writerK .fileT
        false).exit true fsOneF).fs = fsOneF := by
  constructor
  · exact (claim_C8_exclusive_create fsOneF [] pathF [] none
      (mkOpener ['x'] pathF (some (pathF ++ partialSuffix)) .noneS .writerK .fileT false)
      true).1 (by decide)
  · exact ((claim_C8_exclusive_create fsOneF fsOneF pathF (pathF ++ partialSuffix) none
      (mkOpener ['x'] pathF (some (pathF ++ partialSuffix)) .noneS .writerK .fileT false)
      true).2 (by decide) (by decide) (by decide)).1

/-- Counterexample to claim C9 as stated: opening a nonexistent path in
append mode with an explicit transport override does not raise a
not-found error — the transaction opens successfully and creates the file
empty, exactly as Python's `open(path, 'at')` does. -/
theorem claim_C9_counterexample :
    (DumpOpener.init [] pathF ['a'] (some false)).err = none ∧
    (DumpOpener.init [] pathF ['a'] (some false)).fs = [(pathF, [])] ∧
    fsGet ([] : FS) pathF = none := by
  refine ⟨by decide, by decide, by decide⟩

/-- Claim C9, amended: read mode on a missing path always raises
not-found (with or without an override); append mode raises not-found
only when no override is given, because the existence check is really the
gzip sniff's `open(path, 'rb')`; with an explicit override, append mode
creates the missing file instead of raising. -/
theorem claim_C9_amended (fs : FS) (p : List Char) (gz : Option Bool) (b : Bool)
    (h : fsGet fs p = none) :
    (DumpOpener.init fs p ['r'] gz).err = some .notFound ∧
    (DumpOpener.init fs p ['a'] none).err = some .notFound ∧
    (DumpOpener.init fs p ['a'] (some b)).err = none ∧
    (DumpOpener.init fs p ['a'] (some b)).fs = fsSet fs p [] := by
  refine ⟨?_, ?_, ?_, ?_⟩
  · cases gz with
    | none =>
      unfold DumpOpener.init
      simp [h, mkRes, show pySubstr ['r'] rwaxChars = true from by decide,
        show pySubstr ['r'] raChars = true from by decide]
    | some g =>
      unfold DumpOpener.init
      simp [h, mkRes, show pySubstr ['r'] rwaxChars = true from by decide,
        show pySubstr ['r'] raChars = true from by decide]
  · unfold DumpOpener.init
    simp [h, mkRes, show pySubstr ['a'] rwaxChars = true from by decide,
      show pySubstr ['a'] raChars = true from by decide]
  · unfold DumpOpener.init
    simp [h, mkRes, show pySubstr ['a'] rwaxChars = true from by decide,
      show pySubstr ['a'] raChars = true from by decide]
  · unfold DumpOpener.init
    simp [h, mkRes, show pySubstr ['a'] rwaxChars = true from by decide,
      show pySubstr ['a'] raChars = true from by decide]

/-- Witness for the amended claim C9 on an empty file system. -/
theorem claim_C9_witness :
    (DumpOpener.init [] pathF ['r'] none).err = some .notFound ∧
    (DumpOpener.init [] pathF ['a'] none).err = some .notFound ∧
    (DumpOpener.init [] pathF ['a'] (some true)).err = none ∧
    (DumpOpener.init [] pathF ['a'] (some true)).fs = fsSet [] pathF [] := by
  have h := claim_C9_amended [] pathF none true (by decide)
  exact ⟨h.1, h.2.1, h.2.2.1, h.2.2.2⟩

end JD
